import Mathlib

/-!
Shallow embedding of the 2048 rules engine from `src/app/(tabs)/index.tsx`
(the identical copy lives in `src/app/index.tsx`).  Pure functions of the
source become Lean functions; the random draws of the tile spawner become
explicit parameters (an index roll into the empty-cell list and a boolean
roll deciding value 4 versus value 2); the React state updates of
`handleMove` become a step function on an explicit `GameState`.
-/

namespace Game2048

/-- The `Tile` record of the source: id, value, coordinates and the two
render annotations. -/
structure Tile where
  id : Nat
  value : Nat
  row : Nat
  col : Nat
  isNew : Bool
  justMerged : Bool
deriving Repr, DecidableEq

/-- The four swipe directions. -/
inductive Direction where
  | up
  | down
  | left
  | right
deriving Repr, DecidableEq

/-- `BOARD_SIZE = 4` in the source. -/
def BOARD_SIZE : Nat := 4

/-- `INITIAL_TILES = 2` in the source. -/
def INITIAL_TILES : Nat := 2

/-- The `Coordinates` record of the source. -/
structure Coordinates where
  row : Nat
  col : Nat
deriving Repr, DecidableEq

/-- Result of collapsing one line (`slideRow` / `slideColumn` return type). -/
structure LineResult where
  tiles : List Tile
  moved : Bool
  score : Nat
deriving Repr, DecidableEq

/-- The `MoveResult` record of the source. -/
structure MoveResult where
  tiles : List Tile
  moved : Bool
  scoreGained : Nat
deriving Repr, DecidableEq

/-- The grid built by `moveTiles` / `hasAvailableMoves`:
`grid[tile.row][tile.col] = tile` assigned in list order, so the last tile
written at a cell wins; reading cell `(r, c)` is therefore the first match
in the reversed list. -/
def gridLookup (tiles : List Tile) (r c : Nat) : Option Tile :=
  tiles.reverse.find? (fun t => t.row == r && t.col == c)

/-- `occupancy[tile.row][tile.col] = true` of `getEmptyPositions`. -/
def isOccupied (tiles : List Tile) (r c : Nat) : Bool :=
  tiles.any (fun t => t.row == r && t.col == c)

/-- `getEmptyPositions` of the source: all cells of the 4×4 grid carrying
no tile, scanned row-major. -/
def getEmptyPositions (tiles : List Tile) : List Coordinates :=
  (List.range BOARD_SIZE).flatMap (fun row =>
    (List.range BOARD_SIZE).filterMap (fun col =>
      if isOccupied tiles row col then none else some ⟨row, col⟩))

/-- `containsTargetTile` of the source: some tile's value is ≥ target. -/
def containsTargetTile (tiles : List Tile) (target : Nat) : Bool :=
  tiles.any (fun tile => decide (target ≤ tile.value))

/-- `hasAvailableMoves` of the source: fast-path `true` when the board is
not full, otherwise scan every cell for an equal-valued right or down
neighbour. -/
def hasAvailableMoves (tiles : List Tile) : Bool :=
  if tiles.length < BOARD_SIZE * BOARD_SIZE then
    true
  else
    (List.range BOARD_SIZE).any (fun row =>
      (List.range BOARD_SIZE).any (fun col =>
        match gridLookup tiles row col with
        | none => false
        | some tile =>
          (match (if col + 1 < BOARD_SIZE then gridLookup tiles row (col + 1) else none) with
            | some right => right.value == tile.value
            | none => false)
          ||
          (match (if row + 1 < BOARD_SIZE then gridLookup tiles (row + 1) col else none) with
            | some down => down.value == tile.value
            | none => false)))

/-- `addRandomTile` of the source.  The two `Math.random()` draws are the
parameters `rollPos` (reduced modulo the number of empty cells to pick the
spawn cell) and `rollFour` (`true` means the 10% case, value 4).  `newId`
is the value returned by `getId()`. -/
def addRandomTile (tiles : List Tile) (newId rollPos : Nat) (rollFour : Bool) : List Tile :=
  let emptyPositions := getEmptyPositions tiles
  if emptyPositions.isEmpty then
    tiles
  else
    let choice := emptyPositions.getD (rollPos % emptyPositions.length) ⟨0, 0⟩
    let value := if rollFour then 4 else 2
    tiles ++ [⟨newId, value, choice.row, choice.col, true, false⟩]

/-- The loop body of `generateInitialTiles`: `count` remaining iterations,
`idCounter` the current value of the id allocator, one random roll pair
consumed per iteration; the loop breaks when no cell is empty. -/
def generateInitialTilesGo : Nat → Nat → List (Nat × Bool) → List Tile → List Tile
  | 0, _, _, tiles => tiles
  | _ + 1, _, [], tiles => tiles
  | count + 1, idCounter, roll :: rolls, tiles =>
    let emptyPositions := getEmptyPositions tiles
    if emptyPositions.isEmpty then
      tiles
    else
      let choice := emptyPositions.getD (roll.1 % emptyPositions.length) ⟨0, 0⟩
      let value := if roll.2 then 4 else 2
      generateInitialTilesGo count (idCounter + 1) rolls
        (tiles ++ [⟨idCounter + 1, value, choice.row, choice.col, true, false⟩])

/-- `generateInitialTiles` of the source: spawn `INITIAL_TILES` tiles onto
the empty board, ids issued by the freshly reset allocator (1, 2, …). -/
def generateInitialTiles (rolls : List (Nat × Bool)) : List Tile :=
  generateInitialTilesGo INITIAL_TILES 0 rolls []

/-- Sort key of `slideRow` for direction `left`: ascending column. -/
def colAsc (a b : Tile) : Prop := a.col ≤ b.col

/-- Sort key of `slideRow` for direction `right`: descending column. -/
def colDesc (a b : Tile) : Prop := b.col ≤ a.col

/-- Sort key of `slideColumn` for direction `up`: ascending row. -/
def rowAsc (a b : Tile) : Prop := a.row ≤ b.row

/-- Sort key of `slideColumn` for direction `down`: descending row. -/
def rowDesc (a b : Tile) : Prop := b.row ≤ a.row

instance : DecidableRel colAsc := fun a b => inferInstanceAs (Decidable (a.col ≤ b.col))
instance : DecidableRel colDesc := fun a b => inferInstanceAs (Decidable (b.col ≤ a.col))
instance : DecidableRel rowAsc := fun a b => inferInstanceAs (Decidable (a.row ≤ b.row))
instance : DecidableRel rowDesc := fun a b => inferInstanceAs (Decidable (b.row ≤ a.row))

/-- The scan loop of `slideRow` over the sorted tiles, with `targetIndex`
threaded through.  A merge consumes the immediately following tile
(the source advances `i` once more) and is the only way `score` grows. -/
def slideRowAux (rowIdx : Nat) (dir : Direction) : List Tile → Nat → LineResult
  | [], _ => ⟨[], false, 0⟩
  | [tile], targetIndex =>
    let targetCol := if dir = Direction.left then targetIndex else BOARD_SIZE - 1 - targetIndex
    ⟨[{ tile with justMerged := false, col := targetCol, row := rowIdx }],
      tile.col != targetCol || tile.row != rowIdx, 0⟩
  | tile :: nextTile :: rest, targetIndex =>
    let targetCol := if dir = Direction.left then targetIndex else BOARD_SIZE - 1 - targetIndex
    if nextTile.value = tile.value then
      let r := slideRowAux rowIdx dir rest (targetIndex + 1)
      ⟨{ tile with value := tile.value * 2, justMerged := true, col := targetCol, row := rowIdx }
          :: r.tiles,
        true, tile.value * 2 + r.score⟩
    else
      let r := slideRowAux rowIdx dir (nextTile :: rest) (targetIndex + 1)
      ⟨{ tile with justMerged := false, col := targetCol, row := rowIdx } :: r.tiles,
        (tile.col != targetCol || tile.row != rowIdx) || r.moved, r.score⟩

/-- `slideRow` of the source: sort by column (ascending for `left`,
descending for `right`), then run the merge/placement scan. -/
def slideRow (rowTiles : List Tile) (rowIdx : Nat) (dir : Direction) : LineResult :=
  let sorted :=
    if dir = Direction.left then List.insertionSort colAsc rowTiles
    else List.insertionSort colDesc rowTiles
  slideRowAux rowIdx dir sorted 0

/-- The scan loop of `slideColumn`, mirror image of `slideRowAux`. -/
def slideColumnAux (colIdx : Nat) (dir : Direction) : List Tile → Nat → LineResult
  | [], _ => ⟨[], false, 0⟩
  | [tile], targetIndex =>
    let targetRow := if dir = Direction.up then targetIndex else BOARD_SIZE - 1 - targetIndex
    ⟨[{ tile with justMerged := false, row := targetRow, col := colIdx }],
      tile.row != targetRow || tile.col != colIdx, 0⟩
  | tile :: nextTile :: rest, targetIndex =>
    let targetRow := if dir = Direction.up then targetIndex else BOARD_SIZE - 1 - targetIndex
    if nextTile.value = tile.value then
      let r := slideColumnAux colIdx dir rest (targetIndex + 1)
      ⟨{ tile with value := tile.value * 2, justMerged := true, row := targetRow, col := colIdx }
          :: r.tiles,
        true, tile.value * 2 + r.score⟩
    else
      let r := slideColumnAux colIdx dir (nextTile :: rest) (targetIndex + 1)
      ⟨{ tile with justMerged := false, row := targetRow, col := colIdx } :: r.tiles,
        (tile.row != targetRow || tile.col != colIdx) || r.moved, r.score⟩

/-- `slideColumn` of the source: sort by row (ascending for `up`,
descending for `down`), then run the merge/placement scan. -/
def slideColumn (columnTiles : List Tile) (colIdx : Nat) (dir : Direction) : LineResult :=
  let sorted :=
    if dir = Direction.up then List.insertionSort rowAsc columnTiles
    else List.insertionSort rowDesc columnTiles
  slideColumnAux colIdx dir sorted 0

/-- The flag-clearing clone step at the top of `moveTiles`. -/
def clearFlags (t : Tile) : Tile := { t with isNew := false, justMerged := false }

/-- The tiles of row `r`, read from the grid in ascending column order
(the inner gathering loop of `moveTiles` for horizontal moves). -/
def rowTilesOf (tiles : List Tile) (r : Nat) : List Tile :=
  (List.range BOARD_SIZE).filterMap (fun c => gridLookup tiles r c)

/-- The tiles of column `c`, read from the grid in ascending row order
(the inner gathering loop of `moveTiles` for vertical moves). -/
def colTilesOf (tiles : List Tile) (c : Nat) : List Tile :=
  (List.range BOARD_SIZE).filterMap (fun r => gridLookup tiles r c)

/-- The canonical output ordering of `moveTiles`: row, then column, then id. -/
def tileOrder (a b : Tile) : Prop :=
  a.row < b.row ∨ (a.row = b.row ∧ (a.col < b.col ∨ (a.col = b.col ∧ a.id ≤ b.id)))

instance : DecidableRel tileOrder := fun a b =>
  inferInstanceAs (Decidable (a.row < b.row ∨
    (a.row = b.row ∧ (a.col < b.col ∨ (a.col = b.col ∧ a.id ≤ b.id)))))

/-- The per-line loop of `moveTiles`: one `LineResult` per row (horizontal
moves) or per column (vertical moves); an empty line is skipped, which
contributes nothing. -/
def lineResults (clones : List Tile) (dir : Direction) : List LineResult :=
  match dir with
  | Direction.left | Direction.right =>
    (List.range BOARD_SIZE).map (fun row =>
      let rowTiles := rowTilesOf clones row
      if rowTiles.isEmpty then ⟨[], false, 0⟩ else slideRow rowTiles row dir)
  | Direction.up | Direction.down =>
    (List.range BOARD_SIZE).map (fun col =>
      let columnTiles := colTilesOf clones col
      if columnTiles.isEmpty then ⟨[], false, 0⟩ else slideColumn columnTiles col dir)

/-- `moveTiles` of the source: clone with flags cleared, collapse every
line, and either report a no-op (original tiles, flags cleared, score 0)
or the concatenated line outputs in canonical order. -/
def moveTiles (tiles : List Tile) (dir : Direction) : MoveResult :=
  let clones := tiles.map clearFlags
  let results := lineResults clones dir
  let moved := results.any (·.moved)
  let scoreGained := (results.map (·.score)).sum
  let updatedTiles := (results.map (·.tiles)).flatten
  if moved then
    ⟨List.insertionSort tileOrder updatedTiles, true, scoreGained⟩
  else
    ⟨tiles.map (fun tile => { tile with isNew := false, justMerged := false }),
      false, 0⟩

/-- One entry of the per-row loop of `moveTiles`: the line result for row
`row` (an empty row is skipped and contributes nothing). -/
def horEntry (clones : List Tile) (dir : Direction) (row : Nat) : LineResult :=
  if (rowTilesOf clones row).isEmpty then ⟨[], false, 0⟩
  else slideRow (rowTilesOf clones row) row dir

/-- One entry of the per-column loop of `moveTiles`. -/
def verEntry (clones : List Tile) (dir : Direction) (col : Nat) : LineResult :=
  if (colTilesOf clones col).isEmpty then ⟨[], false, 0⟩
  else slideColumn (colTilesOf clones col) col dir

/-- The game-session state handled by the React component: board, scores,
flags and the id-allocator counter. -/
structure GameState where
  tiles : List Tile
  score : Nat
  bestScore : Nat
  hasWon : Bool
  gameOver : Bool
  nextId : Nat
deriving Repr, DecidableEq

/-- `handleMove` of the source as a state transition.  `getNextTileId`
increments the counter and returns it, so the spawned tile gets id
`s.nextId + 1`.  On `gameOver`, and on a `moved = false` result, the state
is returned untouched (the source keeps `previousTiles` and performs no
spawn and no score/flag update). -/
def handleMove (s : GameState) (dir : Direction) (rollPos : Nat) (rollFour : Bool) : GameState :=
  if s.gameOver then s
  else
    let result := moveTiles s.tiles dir
    if !result.moved then s
    else
      let withNewTile := addRandomTile result.tiles (s.nextId + 1) rollPos rollFour
      let nextScore := s.score + result.scoreGained
      { tiles := withNewTile
        score := nextScore
        bestScore := max s.bestScore nextScore
        hasWon := s.hasWon || containsTargetTile withNewTile 2048
        gameOver := !hasAvailableMoves withNewTile
        nextId := s.nextId + 1 }

/-- All sixteen cells of the board, row-major. -/
def cellList : List (Nat × Nat) :=
  (List.range BOARD_SIZE).flatMap (fun r => (List.range BOARD_SIZE).map (fun c => (r, c)))

/-- Position of a tile as a pair. -/
def posOf (t : Tile) : Nat × Nat := (t.row, t.col)

/-- Well-formed board: every coordinate in `[0, BOARD_SIZE)` and no two
tiles at the same cell (the caller contract stated by the spec). -/
def WellFormed (tiles : List Tile) : Prop :=
  (∀ t ∈ tiles, t.row < BOARD_SIZE ∧ t.col < BOARD_SIZE) ∧
  tiles.Pairwise (fun a b => posOf a ≠ posOf b)

instance (tiles : List Tile) : Decidable (WellFormed tiles) := by
  unfold WellFormed
  exact instDecidableAnd

/-- Two tiles on orthogonally adjacent cells. -/
def OrthAdjacent (a b : Tile) : Prop :=
  (a.row = b.row ∧ (a.col + 1 = b.col ∨ b.col + 1 = a.col)) ∨
  (a.col = b.col ∧ (a.row + 1 = b.row ∨ b.row + 1 = a.row))

instance (a b : Tile) : Decidable (OrthAdjacent a b) := by
  unfold OrthAdjacent
  exact instDecidableOr

/-- Sum of all tile values on a board. -/
def sumValues (tiles : List Tile) : Nat := (tiles.map Tile.value).sum

/-- Boards reachable by the session: an initial two-tile board, then any
interleaving of collapses and spawns. -/
inductive Reachable : List Tile → Prop where
  | init (rolls : List (Nat × Bool)) : Reachable (generateInitialTiles rolls)
  | move (b : List Tile) (dir : Direction) : Reachable b → Reachable (moveTiles b dir).tiles
  | spawn (b : List Tile) (newId rollPos : Nat) (rollFour : Bool) :
      Reachable b → Reachable (addRandomTile b newId rollPos rollFour)

/-!  Basic facts about the grid view of a board. -/

theorem gridLookup_mem {tiles : List Tile} {r c : Nat} {t : Tile}
    (h : gridLookup tiles r c = some t) : t ∈ tiles ∧ t.row = r ∧ t.col = c := by
  unfold gridLookup at h
  have hm := List.mem_of_find?_eq_some h
  have hp := List.find?_some h
  simp only [Bool.and_eq_true, beq_iff_eq] at hp
  exact ⟨List.mem_reverse.1 hm, hp.1, hp.2⟩

theorem wf_pos_injective {tiles : List Tile} (hwf : WellFormed tiles) :
    ∀ a ∈ tiles, ∀ b ∈ tiles, posOf a = posOf b → a = b := by
  intro a ha b hb hab
  by_contra hne
  have hsym : Symmetric (fun a b : Tile => posOf a ≠ posOf b) := fun x y h he => h he.symm
  exact List.Pairwise.forall hsym hwf.2 ha hb hne hab

theorem wf_nodup {tiles : List Tile} (hwf : WellFormed tiles) : tiles.Nodup :=
  hwf.2.imp (fun h he => h (congrArg posOf he))

theorem gridLookup_eq_some_of {tiles : List Tile} (hwf : WellFormed tiles)
    {t : Tile} (ht : t ∈ tiles) : gridLookup tiles t.row t.col = some t := by
  unfold gridLookup
  have hs : (tiles.reverse.find? (fun u => u.row == t.row && u.col == t.col)).isSome := by
    rw [List.find?_isSome]
    exact ⟨t, List.mem_reverse.2 ht, by simp⟩
  obtain ⟨u, hu⟩ := Option.isSome_iff_exists.1 hs
  have h1 := List.mem_of_find?_eq_some hu
  have h2 := List.find?_some hu
  simp only [Bool.and_eq_true, beq_iff_eq] at h2
  have heq : u = t :=
    wf_pos_injective hwf u (List.mem_reverse.1 h1) t ht (by simp [posOf, h2.1, h2.2])
  rw [hu, heq]

theorem mem_rowTilesOf {tiles : List Tile} (hwf : WellFormed tiles) {r : Nat} {t : Tile} :
    t ∈ rowTilesOf tiles r ↔ t ∈ tiles ∧ t.row = r := by
  unfold rowTilesOf
  rw [List.mem_filterMap]
  constructor
  · rintro ⟨c, -, hg⟩
    obtain ⟨hm, hr, -⟩ := gridLookup_mem hg
    exact ⟨hm, hr⟩
  · rintro ⟨hm, hr⟩
    refine ⟨t.col, List.mem_range.2 (hwf.1 t hm).2, ?_⟩
    rw [← hr]
    exact gridLookup_eq_some_of hwf hm

theorem mem_colTilesOf {tiles : List Tile} (hwf : WellFormed tiles) {c : Nat} {t : Tile} :
    t ∈ colTilesOf tiles c ↔ t ∈ tiles ∧ t.col = c := by
  unfold colTilesOf
  rw [List.mem_filterMap]
  constructor
  · rintro ⟨r, -, hg⟩
    obtain ⟨hm, -, hc⟩ := gridLookup_mem hg
    exact ⟨hm, hc⟩
  · rintro ⟨hm, hc⟩
    refine ⟨t.row, List.mem_range.2 (hwf.1 t hm).1, ?_⟩
    rw [← hc]
    exact gridLookup_eq_some_of hwf hm

theorem rowTilesOf_nodup (tiles : List Tile) (r : Nat) : (rowTilesOf tiles r).Nodup := by
  unfold rowTilesOf
  refine List.Nodup.filterMap ?_ (List.nodup_range _)
  intro c c' t hc hc'
  rw [Option.mem_def] at hc hc'
  have h1 := (gridLookup_mem hc).2.2
  have h2 := (gridLookup_mem hc').2.2
  omega

theorem colTilesOf_nodup (tiles : List Tile) (c : Nat) : (colTilesOf tiles c).Nodup := by
  unfold colTilesOf
  refine List.Nodup.filterMap ?_ (List.nodup_range _)
  intro r r' t hr hr'
  rw [Option.mem_def] at hr hr'
  have h1 := (gridLookup_mem hr).2.1
  have h2 := (gridLookup_mem hr').2.1
  omega

theorem rows_flatten_perm {tiles : List Tile} (hwf : WellFormed tiles) :
    ((List.range BOARD_SIZE).map (fun r => rowTilesOf tiles r)).flatten.Perm tiles := by
  have hnd2 : ((List.range BOARD_SIZE).map (fun r => rowTilesOf tiles r)).flatten.Nodup := by
    rw [List.nodup_flatten]
    constructor
    · intro l hl
      obtain ⟨r, -, rfl⟩ := List.mem_map.1 hl
      exact rowTilesOf_nodup tiles r
    · rw [List.pairwise_map]
      refine List.Pairwise.imp ?_ (List.pairwise_lt_range BOARD_SIZE)
      intro r r' hlt t ht ht'
      have h1 := ((mem_rowTilesOf hwf).1 ht).2
      have h2 := ((mem_rowTilesOf hwf).1 ht').2
      omega
  rw [List.perm_ext_iff_of_nodup hnd2 (wf_nodup hwf)]
  intro t
  rw [List.mem_flatten]
  constructor
  · rintro ⟨l, hl, ht⟩
    obtain ⟨r, -, rfl⟩ := List.mem_map.1 hl
    exact ((mem_rowTilesOf hwf).1 ht).1
  · intro ht
    exact ⟨rowTilesOf tiles t.row,
      List.mem_map.2 ⟨t.row, List.mem_range.2 (hwf.1 t ht).1, rfl⟩,
      (mem_rowTilesOf hwf).2 ⟨ht, rfl⟩⟩

theorem cols_flatten_perm {tiles : List Tile} (hwf : WellFormed tiles) :
    ((List.range BOARD_SIZE).map (fun c => colTilesOf tiles c)).flatten.Perm tiles := by
  have hnd2 : ((List.range BOARD_SIZE).map (fun c => colTilesOf tiles c)).flatten.Nodup := by
    rw [List.nodup_flatten]
    constructor
    · intro l hl
      obtain ⟨c, -, rfl⟩ := List.mem_map.1 hl
      exact colTilesOf_nodup tiles c
    · rw [List.pairwise_map]
      refine List.Pairwise.imp ?_ (List.pairwise_lt_range BOARD_SIZE)
      intro c c' hlt t ht ht'
      have h1 := ((mem_colTilesOf hwf).1 ht).2
      have h2 := ((mem_colTilesOf hwf).1 ht').2
      omega
  rw [List.perm_ext_iff_of_nodup hnd2 (wf_nodup hwf)]
  intro t
  rw [List.mem_flatten]
  constructor
  · rintro ⟨l, hl, ht⟩
    obtain ⟨c, -, rfl⟩ := List.mem_map.1 hl
    exact ((mem_colTilesOf hwf).1 ht).1
  · intro ht
    exact ⟨colTilesOf tiles t.col,
      List.mem_map.2 ⟨t.col, List.mem_range.2 (hwf.1 t ht).2, rfl⟩,
      (mem_colTilesOf hwf).2 ⟨ht, rfl⟩⟩

theorem wf_of_perm {l l' : List Tile} (h : l.Perm l') (hwf : WellFormed l) :
    WellFormed l' := by
  refine ⟨fun t ht => hwf.1 t (h.mem_iff.2 ht), ?_⟩
  exact (List.Perm.pairwise_iff (fun hne he => hne he.symm) h).1 hwf.2

theorem wf_clearFlags {tiles : List Tile} (hwf : WellFormed tiles) :
    WellFormed (tiles.map clearFlags) := by
  constructor
  · intro t ht
    obtain ⟨u, hu, rfl⟩ := List.mem_map.1 ht
    exact hwf.1 u hu
  · rw [List.pairwise_map]
    exact hwf.2.imp (fun h => h)

/-!  Facts about the line-collapse scan. -/

theorem sumValues_perm {l l' : List Tile} (h : l.Perm l') : sumValues l = sumValues l' :=
  (h.map Tile.value).sum_eq

theorem slideRowAux_sum (rowIdx : Nat) (dir : Direction) :
    ∀ (l : List Tile) (ti : Nat), sumValues (slideRowAux rowIdx dir l ti).tiles = sumValues l
  | [], _ => by simp [slideRowAux, sumValues]
  | [t], ti => by simp [slideRowAux, sumValues]
  | t :: n :: rest, ti => by
    by_cases h : n.value = t.value
    · have ih := slideRowAux_sum rowIdx dir rest (ti + 1)
      simp only [slideRowAux, h, if_pos rfl, if_true, sumValues, List.map_cons,
        List.sum_cons] at ih ⊢
      omega
    · have ih := slideRowAux_sum rowIdx dir (n :: rest) (ti + 1)
      simp only [slideRowAux, h, if_false, sumValues, List.map_cons, List.sum_cons,
        ite_false] at ih ⊢
      omega

theorem slideColumnAux_sum (colIdx : Nat) (dir : Direction) :
    ∀ (l : List Tile) (ti : Nat), sumValues (slideColumnAux colIdx dir l ti).tiles = sumValues l
  | [], _ => by simp [slideColumnAux, sumValues]
  | [t], ti => by simp [slideColumnAux, sumValues]
  | t :: n :: rest, ti => by
    by_cases h : n.value = t.value
    · have ih := slideColumnAux_sum colIdx dir rest (ti + 1)
      simp only [slideColumnAux, h, if_pos rfl, if_true, sumValues, List.map_cons,
        List.sum_cons] at ih ⊢
      omega
    · have ih := slideColumnAux_sum colIdx dir (n :: rest) (ti + 1)
      simp only [slideColumnAux, h, if_false, sumValues, List.map_cons, List.sum_cons,
        ite_false] at ih ⊢
      omega

theorem slideRowAux_length (rowIdx : Nat) (dir : Direction) :
    ∀ (l : List Tile) (ti : Nat), (slideRowAux rowIdx dir l ti).tiles.length ≤ l.length
  | [], _ => by simp [slideRowAux]
  | [t], ti => by simp [slideRowAux]
  | t :: n :: rest, ti => by
    by_cases h : n.value = t.value
    · have ih := slideRowAux_length rowIdx dir rest (ti + 1)
      simp only [slideRowAux, h, if_true, List.length_cons] at ih ⊢
      omega
    · have ih := slideRowAux_length rowIdx dir (n :: rest) (ti + 1)
      simp only [slideRowAux, h, if_false, List.length_cons, ite_false] at ih ⊢
      omega

theorem slideColumnAux_length (colIdx : Nat) (dir : Direction) :
    ∀ (l : List Tile) (ti : Nat), (slideColumnAux colIdx dir l ti).tiles.length ≤ l.length
  | [], _ => by simp [slideColumnAux]
  | [t], ti => by simp [slideColumnAux]
  | t :: n :: rest, ti => by
    by_cases h : n.value = t.value
    · have ih := slideColumnAux_length colIdx dir rest (ti + 1)
      simp only [slideColumnAux, h, if_true, List.length_cons] at ih ⊢
      omega
    · have ih := slideColumnAux_length colIdx dir (n :: rest) (ti + 1)
      simp only [slideColumnAux, h, if_false, List.length_cons, ite_false] at ih ⊢
      omega

theorem slideRowAux_ids (rowIdx : Nat) (dir : Direction) :
    ∀ (l : List Tile) (ti : Nat), ∀ u ∈ (slideRowAux rowIdx dir l ti).tiles,
      u.id ∈ l.map Tile.id
  | [], _ => by simp [slideRowAux]
  | [t], ti => by simp [slideRowAux]
  | t :: n :: rest, ti => by
    intro u hu
    by_cases h : n.value = t.value
    · simp only [slideRowAux, h, if_true, List.mem_cons] at hu
      rcases hu with rfl | hu
      · simp
      · have := slideRowAux_ids rowIdx dir rest (ti + 1) u hu
        simp only [List.map_cons, List.mem_cons] at this ⊢
        tauto
    · simp only [slideRowAux, h, ite_false, List.mem_cons] at hu
      rcases hu with rfl | hu
      · simp
      · have := slideRowAux_ids rowIdx dir (n :: rest) (ti + 1) u hu
        simp only [List.map_cons, List.mem_cons] at this ⊢
        tauto

theorem slideColumnAux_ids (colIdx : Nat) (dir : Direction) :
    ∀ (l : List Tile) (ti : Nat), ∀ u ∈ (slideColumnAux colIdx dir l ti).tiles,
      u.id ∈ l.map Tile.id
  | [], _ => by simp [slideColumnAux]
  | [t], ti => by simp [slideColumnAux]
  | t :: n :: rest, ti => by
    intro u hu
    by_cases h : n.value = t.value
    · simp only [slideColumnAux, h, if_true, List.mem_cons] at hu
      rcases hu with rfl | hu
      · simp
      · have := slideColumnAux_ids colIdx dir rest (ti + 1) u hu
        simp only [List.map_cons, List.mem_cons] at this ⊢
        tauto
    · simp only [slideColumnAux, h, ite_false, List.mem_cons] at hu
      rcases hu with rfl | hu
      · simp
      · have := slideColumnAux_ids colIdx dir (n :: rest) (ti + 1) u hu
        simp only [List.map_cons, List.mem_cons] at this ⊢
        tauto

theorem slideRowAux_mem_pos (rowIdx : Nat) (dir : Direction) :
    ∀ (l : List Tile) (ti : Nat), ∀ u ∈ (slideRowAux rowIdx dir l ti).tiles,
      u.row = rowIdx ∧ ∃ j < l.length,
        u.col = (if dir = Direction.left then ti + j else BOARD_SIZE - 1 - (ti + j))
  | [], _ => by simp [slideRowAux]
  | [t], ti => by
    intro u hu
    simp only [slideRowAux, List.mem_singleton] at hu
    subst hu
    exact ⟨rfl, 0, by simp, by simp⟩
  | t :: n :: rest, ti => by
    intro u hu
    by_cases hv : n.value = t.value
    · simp only [slideRowAux, hv, if_true, List.mem_cons] at hu
      rcases hu with rfl | hu
      · exact ⟨rfl, 0, by simp, by simp⟩
      · obtain ⟨hr, j, hj, hc⟩ := slideRowAux_mem_pos rowIdx dir rest (ti + 1) u hu
        refine ⟨hr, j + 1, by simp; omega, ?_⟩
        rw [hc]
        by_cases hd : dir = Direction.left <;> simp [hd] <;> omega
    · simp only [slideRowAux, hv, ite_false, List.mem_cons] at hu
      rcases hu with rfl | hu
      · exact ⟨rfl, 0, by simp, by simp⟩
      · obtain ⟨hr, j, hj, hc⟩ := slideRowAux_mem_pos rowIdx dir (n :: rest) (ti + 1) u hu
        refine ⟨hr, j + 1, by simp at hj ⊢; omega, ?_⟩
        rw [hc]
        by_cases hd : dir = Direction.left <;> simp [hd] <;> omega

theorem slideColumnAux_mem_pos (colIdx : Nat) (dir : Direction) :
    ∀ (l : List Tile) (ti : Nat), ∀ u ∈ (slideColumnAux colIdx dir l ti).tiles,
      u.col = colIdx ∧ ∃ j < l.length,
        u.row = (if dir = Direction.up then ti + j else BOARD_SIZE - 1 - (ti + j))
  | [], _ => by simp [slideColumnAux]
  | [t], ti => by
    intro u hu
    simp only [slideColumnAux, List.mem_singleton] at hu
    subst hu
    exact ⟨rfl, 0, by simp, by simp⟩
  | t :: n :: rest, ti => by
    intro u hu
    by_cases hv : n.value = t.value
    · simp only [slideColumnAux, hv, if_true, List.mem_cons] at hu
      rcases hu with rfl | hu
      · exact ⟨rfl, 0, by simp, by simp⟩
      · obtain ⟨hr, j, hj, hc⟩ := slideColumnAux_mem_pos colIdx dir rest (ti + 1) u hu
        refine ⟨hr, j + 1, by simp; omega, ?_⟩
        rw [hc]
        by_cases hd : dir = Direction.up <;> simp [hd] <;> omega
    · simp only [slideColumnAux, hv, ite_false, List.mem_cons] at hu
      rcases hu with rfl | hu
      · exact ⟨rfl, 0, by simp, by simp⟩
      · obtain ⟨hr, j, hj, hc⟩ := slideColumnAux_mem_pos colIdx dir (n :: rest) (ti + 1) u hu
        refine ⟨hr, j + 1, by simp at hj ⊢; omega, ?_⟩
        rw [hc]
        by_cases hd : dir = Direction.up <;> simp [hd] <;> omega

theorem slideRowAux_colNe (rowIdx : Nat) (dir : Direction) :
    ∀ (l : List Tile) (ti : Nat), ti + l.length ≤ BOARD_SIZE →
      (slideRowAux rowIdx dir l ti).tiles.Pairwise (fun a b => a.col ≠ b.col)
  | [], _ => by simp [slideRowAux]
  | [t], ti => by simp [slideRowAux]
  | t :: n :: rest, ti => by
    intro hb
    simp only [List.length_cons, BOARD_SIZE] at hb
    by_cases hv : n.value = t.value
    · simp only [slideRowAux, hv, if_true]
      refine List.Pairwise.cons ?_
        (slideRowAux_colNe rowIdx dir rest (ti + 1) (by simp [BOARD_SIZE]; omega))
      intro u hu
      obtain ⟨-, j, hj, hc⟩ := slideRowAux_mem_pos rowIdx dir rest (ti + 1) u hu
      rw [hc]
      by_cases hd : dir = Direction.left
      · simp only [hd, if_true, BOARD_SIZE]
        omega
      · simp only [hd, if_false, BOARD_SIZE]
        omega
    · simp only [slideRowAux, hv, ite_false]
      refine List.Pairwise.cons ?_
        (slideRowAux_colNe rowIdx dir (n :: rest) (ti + 1) (by simp [BOARD_SIZE]; omega))
      intro u hu
      obtain ⟨-, j, hj, hc⟩ := slideRowAux_mem_pos rowIdx dir (n :: rest) (ti + 1) u hu
      simp only [List.length_cons] at hj
      rw [hc]
      by_cases hd : dir = Direction.left
      · simp only [hd, if_true, BOARD_SIZE]
        omega
      · simp only [hd, if_false, BOARD_SIZE]
        omega

theorem slideColumnAux_rowNe (colIdx : Nat) (dir : Direction) :
    ∀ (l : List Tile) (ti : Nat), ti + l.length ≤ BOARD_SIZE →
      (slideColumnAux colIdx dir l ti).tiles.Pairwise (fun a b => a.row ≠ b.row)
  | [], _ => by simp [slideColumnAux]
  | [t], ti => by simp [slideColumnAux]
  | t :: n :: rest, ti => by
    intro hb
    simp only [List.length_cons, BOARD_SIZE] at hb
    by_cases hv : n.value = t.value
    · simp only [slideColumnAux, hv, if_true]
      refine List.Pairwise.cons ?_
        (slideColumnAux_rowNe colIdx dir rest (ti + 1) (by simp [BOARD_SIZE]; omega))
      intro u hu
      obtain ⟨-, j, hj, hc⟩ := slideColumnAux_mem_pos colIdx dir rest (ti + 1) u hu
      rw [hc]
      by_cases hd : dir = Direction.up
      · simp only [hd, if_true, BOARD_SIZE]
        omega
      · simp only [hd, if_false, BOARD_SIZE]
        omega
    · simp only [slideColumnAux, hv, ite_false]
      refine List.Pairwise.cons ?_
        (slideColumnAux_rowNe colIdx dir (n :: rest) (ti + 1) (by simp [BOARD_SIZE]; omega))
      intro u hu
      obtain ⟨-, j, hj, hc⟩ := slideColumnAux_mem_pos colIdx dir (n :: rest) (ti + 1) u hu
      simp only [List.length_cons] at hj
      rw [hc]
      by_cases hd : dir = Direction.up
      · simp only [hd, if_true, BOARD_SIZE]
        omega
      · simp only [hd, if_false, BOARD_SIZE]
        omega

/-!  Lifting from the scan to `slideRow` / `slideColumn`. -/

theorem slideRow_sum (rowTiles : List Tile) (rowIdx : Nat) (dir : Direction) :
    sumValues (slideRow rowTiles rowIdx dir).tiles = sumValues rowTiles := by
  unfold slideRow
  by_cases hd : dir = Direction.left
  · rw [if_pos hd, slideRowAux_sum]
    exact sumValues_perm (List.perm_insertionSort _ _)
  · rw [if_neg hd, slideRowAux_sum]
    exact sumValues_perm (List.perm_insertionSort _ _)

theorem slideColumn_sum (columnTiles : List Tile) (colIdx : Nat) (dir : Direction) :
    sumValues (slideColumn columnTiles colIdx dir).tiles = sumValues columnTiles := by
  unfold slideColumn
  by_cases hd : dir = Direction.up
  · rw [if_pos hd, slideColumnAux_sum]
    exact sumValues_perm (List.perm_insertionSort _ _)
  · rw [if_neg hd, slideColumnAux_sum]
    exact sumValues_perm (List.perm_insertionSort _ _)

theorem slideRow_length (rowTiles : List Tile) (rowIdx : Nat) (dir : Direction) :
    (slideRow rowTiles rowIdx dir).tiles.length ≤ rowTiles.length := by
  unfold slideRow
  by_cases hd : dir = Direction.left
  · rw [if_pos hd]
    calc (slideRowAux rowIdx dir (List.insertionSort colAsc rowTiles) 0).tiles.length
        ≤ (List.insertionSort colAsc rowTiles).length := slideRowAux_length _ _ _ _
      _ = rowTiles.length := List.length_insertionSort _ _
  · rw [if_neg hd]
    calc (slideRowAux rowIdx dir (List.insertionSort colDesc rowTiles) 0).tiles.length
        ≤ (List.insertionSort colDesc rowTiles).length := slideRowAux_length _ _ _ _
      _ = rowTiles.length := List.length_insertionSort _ _

theorem slideColumn_length (columnTiles : List Tile) (colIdx : Nat) (dir : Direction) :
    (slideColumn columnTiles colIdx dir).tiles.length ≤ columnTiles.length := by
  unfold slideColumn
  by_cases hd : dir = Direction.up
  · rw [if_pos hd]
    calc (slideColumnAux colIdx dir (List.insertionSort rowAsc columnTiles) 0).tiles.length
        ≤ (List.insertionSort rowAsc columnTiles).length := slideColumnAux_length _ _ _ _
      _ = columnTiles.length := List.length_insertionSort _ _
  · rw [if_neg hd]
    calc (slideColumnAux colIdx dir (List.insertionSort rowDesc columnTiles) 0).tiles.length
        ≤ (List.insertionSort rowDesc columnTiles).length := slideColumnAux_length _ _ _ _
      _ = columnTiles.length := List.length_insertionSort _ _

theorem slideRow_line_facts (rowTiles : List Tile) (rowIdx : Nat) (dir : Direction)
    (hlen : rowTiles.length ≤ BOARD_SIZE) :
    (∀ u ∈ (slideRow rowTiles rowIdx dir).tiles, u.row = rowIdx ∧ u.col < BOARD_SIZE) ∧
    (slideRow rowTiles rowIdx dir).tiles.Pairwise (fun a b => posOf a ≠ posOf b) := by
  have key : ∀ (s : List Tile), s.length = rowTiles.length →
      (∀ u ∈ (slideRowAux rowIdx dir s 0).tiles, u.row = rowIdx ∧ u.col < BOARD_SIZE) ∧
      (slideRowAux rowIdx dir s 0).tiles.Pairwise (fun a b => posOf a ≠ posOf b) := by
    intro s hs
    constructor
    · intro u hu
      obtain ⟨hr, j, hj, hc⟩ := slideRowAux_mem_pos rowIdx dir s 0 u hu
      refine ⟨hr, ?_⟩
      rw [hc]
      rw [hs] at hj
      by_cases hd : dir = Direction.left
      · simp only [hd, if_true, BOARD_SIZE] at *
        omega
      · simp only [hd, if_false, BOARD_SIZE] at *
        omega
    · have hcol := slideRowAux_colNe rowIdx dir s 0 (by omega)
      exact hcol.imp (fun h he => h (congrArg Prod.snd he))
  unfold slideRow
  by_cases hd : dir = Direction.left
  · rw [if_pos hd]
    exact key _ (List.length_insertionSort _ _)
  · rw [if_neg hd]
    exact key _ (List.length_insertionSort _ _)

theorem slideColumn_line_facts (columnTiles : List Tile) (colIdx : Nat) (dir : Direction)
    (hlen : columnTiles.length ≤ BOARD_SIZE) :
    (∀ u ∈ (slideColumn columnTiles colIdx dir).tiles, u.col = colIdx ∧ u.row < BOARD_SIZE) ∧
    (slideColumn columnTiles colIdx dir).tiles.Pairwise (fun a b => posOf a ≠ posOf b) := by
  have key : ∀ (s : List Tile), s.length = columnTiles.length →
      (∀ u ∈ (slideColumnAux colIdx dir s 0).tiles, u.col = colIdx ∧ u.row < BOARD_SIZE) ∧
      (slideColumnAux colIdx dir s 0).tiles.Pairwise (fun a b => posOf a ≠ posOf b) := by
    intro s hs
    constructor
    · intro u hu
      obtain ⟨hr, j, hj, hc⟩ := slideColumnAux_mem_pos colIdx dir s 0 u hu
      refine ⟨hr, ?_⟩
      rw [hc]
      rw [hs] at hj
      by_cases hd : dir = Direction.up
      · simp only [hd, if_true, BOARD_SIZE] at *
        omega
      · simp only [hd, if_false, BOARD_SIZE] at *
        omega
    · have hrow := slideColumnAux_rowNe colIdx dir s 0 (by omega)
      exact hrow.imp (fun h he => h (congrArg Prod.fst he))
  unfold slideColumn
  by_cases hd : dir = Direction.up
  · rw [if_pos hd]
    exact key _ (List.length_insertionSort _ _)
  · rw [if_neg hd]
    exact key _ (List.length_insertionSort _ _)

theorem rowTilesOf_length_le (tiles : List Tile) (r : Nat) :
    (rowTilesOf tiles r).length ≤ BOARD_SIZE := by
  unfold rowTilesOf
  have := List.length_filterMap_le (fun c => gridLookup tiles r c) (List.range BOARD_SIZE)
  simpa using this

theorem colTilesOf_length_le (tiles : List Tile) (c : Nat) :
    (colTilesOf tiles c).length ≤ BOARD_SIZE := by
  unfold colTilesOf
  have := List.length_filterMap_le (fun r => gridLookup tiles r c) (List.range BOARD_SIZE)
  simpa using this

theorem sumValues_append (l l' : List Tile) :
    sumValues (l ++ l') = sumValues l + sumValues l' := by
  simp [sumValues, List.map_append, List.sum_append]

theorem sumValues_flatten : ∀ (L : List (List Tile)),
    sumValues L.flatten = (L.map sumValues).sum
  | [] => rfl
  | l :: L => by
    simp only [List.flatten_cons, sumValues_append, List.map_cons, List.sum_cons,
      sumValues_flatten L]

theorem sumValues_clearFlags (l : List Tile) :
    sumValues (l.map clearFlags) = sumValues l := by
  have h : Tile.value ∘ clearFlags = Tile.value := funext (fun t => rfl)
  simp [sumValues, List.map_map, h]

/-!  Structural facts about `moveTiles`. -/

theorem moveTiles_eq (tiles : List Tile) (dir : Direction) :
    moveTiles tiles dir =
      (if (lineResults (tiles.map clearFlags) dir).any (·.moved) then
        (⟨List.insertionSort tileOrder
            (((lineResults (tiles.map clearFlags) dir).map (·.tiles)).flatten),
          true,
          ((lineResults (tiles.map clearFlags) dir).map (·.score)).sum⟩ : MoveResult)
      else
        ⟨tiles.map (fun tile => { tile with isNew := false, justMerged := false }),
          false, 0⟩) :=
  rfl

theorem moveTiles_of_moved {tiles : List Tile} {dir : Direction}
    (h : (lineResults (tiles.map clearFlags) dir).any (·.moved) = true) :
    moveTiles tiles dir =
      ⟨List.insertionSort tileOrder
          (((lineResults (tiles.map clearFlags) dir).map (·.tiles)).flatten),
        true,
        ((lineResults (tiles.map clearFlags) dir).map (·.score)).sum⟩ := by
  rw [moveTiles_eq, if_pos h]

theorem moveTiles_of_not_moved {tiles : List Tile} {dir : Direction}
    (h : (lineResults (tiles.map clearFlags) dir).any (·.moved) = false) :
    moveTiles tiles dir = ⟨tiles.map clearFlags, false, 0⟩ := by
  rw [moveTiles_eq, if_neg (by simp [h])]
  rfl

theorem moveTiles_moved_iff (tiles : List Tile) (dir : Direction) :
    (moveTiles tiles dir).moved = (lineResults (tiles.map clearFlags) dir).any (·.moved) := by
  cases hb : (lineResults (tiles.map clearFlags) dir).any (·.moved)
  · rw [moveTiles_of_not_moved hb]
  · rw [moveTiles_of_moved hb]

theorem lineResults_hor (clones : List Tile) (dir : Direction)
    (hd : dir = Direction.left ∨ dir = Direction.right) :
    lineResults clones dir = (List.range BOARD_SIZE).map (horEntry clones dir) := by
  rcases hd with rfl | rfl <;> rfl

theorem lineResults_ver (clones : List Tile) (dir : Direction)
    (hd : dir = Direction.up ∨ dir = Direction.down) :
    lineResults clones dir = (List.range BOARD_SIZE).map (verEntry clones dir) := by
  rcases hd with rfl | rfl <;> rfl

theorem hor_entry_mem {clones : List Tile} {dir : Direction} {r : Nat} {u : Tile}
    (hu : u ∈ (horEntry clones dir r).tiles) :
    u.row = r ∧ u.col < BOARD_SIZE := by
  unfold horEntry at hu
  by_cases he : (rowTilesOf clones r).isEmpty
  · rw [if_pos he] at hu
    simp at hu
  · rw [if_neg he] at hu
    exact (slideRow_line_facts _ _ _ (rowTilesOf_length_le clones r)).1 u hu

theorem ver_entry_mem {clones : List Tile} {dir : Direction} {c : Nat} {u : Tile}
    (hu : u ∈ (verEntry clones dir c).tiles) :
    u.col = c ∧ u.row < BOARD_SIZE := by
  unfold verEntry at hu
  by_cases he : (colTilesOf clones c).isEmpty
  · rw [if_pos he] at hu
    simp at hu
  · rw [if_neg he] at hu
    exact (slideColumn_line_facts _ _ _ (colTilesOf_length_le clones c)).1 u hu

theorem hor_entry_pairwise (clones : List Tile) (dir : Direction) (r : Nat) :
    (horEntry clones dir r).tiles.Pairwise (fun a b => posOf a ≠ posOf b) := by
  unfold horEntry
  by_cases he : (rowTilesOf clones r).isEmpty
  · rw [if_pos he]
    simp
  · rw [if_neg he]
    exact (slideRow_line_facts _ _ _ (rowTilesOf_length_le clones r)).2

theorem ver_entry_pairwise (clones : List Tile) (dir : Direction) (c : Nat) :
    (verEntry clones dir c).tiles.Pairwise (fun a b => posOf a ≠ posOf b) := by
  unfold verEntry
  by_cases he : (colTilesOf clones c).isEmpty
  · rw [if_pos he]
    simp
  · rw [if_neg he]
    exact (slideColumn_line_facts _ _ _ (colTilesOf_length_le clones c)).2

theorem hor_entry_sum (clones : List Tile) (dir : Direction) (r : Nat) :
    sumValues (horEntry clones dir r).tiles = sumValues (rowTilesOf clones r) := by
  unfold horEntry
  by_cases he : (rowTilesOf clones r).isEmpty
  · rw [if_pos he, List.isEmpty_iff.1 he]
  · rw [if_neg he]
    exact slideRow_sum _ _ _

theorem ver_entry_sum (clones : List Tile) (dir : Direction) (c : Nat) :
    sumValues (verEntry clones dir c).tiles = sumValues (colTilesOf clones c) := by
  unfold verEntry
  by_cases he : (colTilesOf clones c).isEmpty
  · rw [if_pos he, List.isEmpty_iff.1 he]
  · rw [if_neg he]
    exact slideColumn_sum _ _ _

theorem hor_entry_length (clones : List Tile) (dir : Direction) (r : Nat) :
    (horEntry clones dir r).tiles.length ≤ (rowTilesOf clones r).length := by
  unfold horEntry
  by_cases he : (rowTilesOf clones r).isEmpty
  · rw [if_pos he]
    simp
  · rw [if_neg he]
    exact slideRow_length _ _ _

theorem ver_entry_length (clones : List Tile) (dir : Direction) (c : Nat) :
    (verEntry clones dir c).tiles.length ≤ (colTilesOf clones c).length := by
  unfold verEntry
  by_cases he : (colTilesOf clones c).isEmpty
  · rw [if_pos he]
    simp
  · rw [if_neg he]
    exact slideColumn_length _ _ _

/-!  Aggregation over all four lines. -/

theorem hor_entries_sum (clones : List Tile) (dir : Direction) :
    ∀ rs : List Nat,
      (((rs.map (horEntry clones dir)).map (·.tiles)).map sumValues).sum
        = ((rs.map (fun r => rowTilesOf clones r)).map sumValues).sum
  | [] => rfl
  | r :: rs => by
    simp only [List.map_cons, List.sum_cons, hor_entries_sum clones dir rs, hor_entry_sum]

theorem ver_entries_sum (clones : List Tile) (dir : Direction) :
    ∀ cs : List Nat,
      (((cs.map (verEntry clones dir)).map (·.tiles)).map sumValues).sum
        = ((cs.map (fun c => colTilesOf clones c)).map sumValues).sum
  | [] => rfl
  | c :: cs => by
    simp only [List.map_cons, List.sum_cons, ver_entries_sum clones dir cs, ver_entry_sum]

theorem hor_entries_length (clones : List Tile) (dir : Direction) :
    ∀ rs : List Nat,
      (((rs.map (horEntry clones dir)).map (·.tiles)).map List.length).sum
        ≤ ((rs.map (fun r => rowTilesOf clones r)).map List.length).sum
  | [] => le_refl _
  | r :: rs => by
    simp only [List.map_cons, List.sum_cons]
    exact Nat.add_le_add (hor_entry_length clones dir r) (hor_entries_length clones dir rs)

theorem ver_entries_length (clones : List Tile) (dir : Direction) :
    ∀ cs : List Nat,
      (((cs.map (verEntry clones dir)).map (·.tiles)).map List.length).sum
        ≤ ((cs.map (fun c => colTilesOf clones c)).map List.length).sum
  | [] => le_refl _
  | c :: cs => by
    simp only [List.map_cons, List.sum_cons]
    exact Nat.add_le_add (ver_entry_length clones dir c) (ver_entries_length clones dir cs)

theorem hor_entries_mem (clones : List Tile) (dir : Direction) (rs : List Nat) {u : Tile}
    (hu : u ∈ ((rs.map (horEntry clones dir)).map (·.tiles)).flatten) :
    ∃ r ∈ rs, u.row = r ∧ u.col < BOARD_SIZE := by
  rw [List.mem_flatten] at hu
  obtain ⟨l, hl, hu⟩ := hu
  rw [List.map_map, List.mem_map] at hl
  obtain ⟨r, hr, rfl⟩ := hl
  obtain ⟨h1, h2⟩ := hor_entry_mem (u := u) (by simpa using hu)
  exact ⟨r, hr, h1, h2⟩

theorem ver_entries_mem (clones : List Tile) (dir : Direction) (cs : List Nat) {u : Tile}
    (hu : u ∈ ((cs.map (verEntry clones dir)).map (·.tiles)).flatten) :
    ∃ c ∈ cs, u.col = c ∧ u.row < BOARD_SIZE := by
  rw [List.mem_flatten] at hu
  obtain ⟨l, hl, hu⟩ := hu
  rw [List.map_map, List.mem_map] at hl
  obtain ⟨c, hc, rfl⟩ := hl
  obtain ⟨h1, h2⟩ := ver_entry_mem (u := u) (by simpa using hu)
  exact ⟨c, hc, h1, h2⟩

theorem hor_entries_wf (clones : List Tile) (dir : Direction) :
    ∀ rs : List Nat, rs.Pairwise (· ≠ ·) → (∀ r ∈ rs, r < BOARD_SIZE) →
      WellFormed (((rs.map (horEntry clones dir)).map (·.tiles)).flatten)
  | [] => fun _ _ => ⟨by simp, by simp⟩
  | r :: rs => by
    intro hp hlt
    simp only [List.map_cons, List.flatten_cons]
    have ih := hor_entries_wf clones dir rs hp.of_cons
      (fun x hx => hlt x (List.mem_cons_of_mem r hx))
    constructor
    · intro u hu
      rcases List.mem_append.1 hu with hu | hu
      · obtain ⟨h1, h2⟩ := hor_entry_mem hu
        exact ⟨h1 ▸ hlt r (List.mem_cons_self r rs), h2⟩
      · exact ih.1 u hu
    · rw [List.pairwise_append]
      refine ⟨hor_entry_pairwise clones dir r, ih.2, ?_⟩
      intro a ha b hb
      obtain ⟨ha1, -⟩ := hor_entry_mem ha
      obtain ⟨r', hr', hb1, -⟩ := hor_entries_mem clones dir rs hb
      have hne : r ≠ r' := List.rel_of_pairwise_cons hp hr'
      intro he
      apply hne
      rw [← ha1, ← hb1]
      exact congrArg Prod.fst he

theorem ver_entries_wf (clones : List Tile) (dir : Direction) :
    ∀ cs : List Nat, cs.Pairwise (· ≠ ·) → (∀ c ∈ cs, c < BOARD_SIZE) →
      WellFormed (((cs.map (verEntry clones dir)).map (·.tiles)).flatten)
  | [] => fun _ _ => ⟨by simp, by simp⟩
  | c :: cs => by
    intro hp hlt
    simp only [List.map_cons, List.flatten_cons]
    have ih := ver_entries_wf clones dir cs hp.of_cons
      (fun x hx => hlt x (List.mem_cons_of_mem c hx))
    constructor
    · intro u hu
      rcases List.mem_append.1 hu with hu | hu
      · obtain ⟨h1, h2⟩ := ver_entry_mem hu
        exact ⟨h2, h1 ▸ hlt c (List.mem_cons_self c cs)⟩
      · exact ih.1 u hu
    · rw [List.pairwise_append]
      refine ⟨ver_entry_pairwise clones dir c, ih.2, ?_⟩
      intro a ha b hb
      obtain ⟨ha1, -⟩ := ver_entry_mem ha
      obtain ⟨c', hc', hb1, -⟩ := ver_entries_mem clones dir cs hb
      have hne : c ≠ c' := List.rel_of_pairwise_cons hp hc'
      intro he
      apply hne
      rw [← ha1, ← hb1]
      exact congrArg Prod.snd he

theorem moveTiles_sum {tiles : List Tile} (dir : Direction) (hwf : WellFormed tiles) :
    sumValues (moveTiles tiles dir).tiles = sumValues tiles := by
  have hwfc := wf_clearFlags hwf
  cases hb : (lineResults (tiles.map clearFlags) dir).any (·.moved)
  · rw [moveTiles_of_not_moved hb]
    exact sumValues_clearFlags tiles
  · rw [moveTiles_of_moved hb]
    show sumValues (List.insertionSort tileOrder _) = _
    rw [sumValues_perm (List.perm_insertionSort tileOrder _), sumValues_flatten,
      ← sumValues_clearFlags tiles]
    cases dir
    case left =>
      rw [lineResults_hor _ _ (Or.inl rfl), hor_entries_sum, ← sumValues_flatten]
      exact sumValues_perm (rows_flatten_perm hwfc)
    case right =>
      rw [lineResults_hor _ _ (Or.inr rfl), hor_entries_sum, ← sumValues_flatten]
      exact sumValues_perm (rows_flatten_perm hwfc)
    case up =>
      rw [lineResults_ver _ _ (Or.inl rfl), ver_entries_sum, ← sumValues_flatten]
      exact sumValues_perm (cols_flatten_perm hwfc)
    case down =>
      rw [lineResults_ver _ _ (Or.inr rfl), ver_entries_sum, ← sumValues_flatten]
      exact sumValues_perm (cols_flatten_perm hwfc)

theorem moveTiles_wf {tiles : List Tile} (dir : Direction) (hwf : WellFormed tiles) :
    WellFormed (moveTiles tiles dir).tiles := by
  have hrange : (List.range BOARD_SIZE).Pairwise (· ≠ ·) :=
    (List.pairwise_lt_range BOARD_SIZE).imp Nat.ne_of_lt
  cases hb : (lineResults (tiles.map clearFlags) dir).any (·.moved)
  · rw [moveTiles_of_not_moved hb]
    exact wf_clearFlags hwf
  · rw [moveTiles_of_moved hb]
    refine wf_of_perm (List.perm_insertionSort tileOrder _).symm ?_
    cases dir
    case left =>
      rw [lineResults_hor _ _ (Or.inl rfl)]
      exact hor_entries_wf _ _ _ hrange (fun r hr => List.mem_range.1 hr)
    case right =>
      rw [lineResults_hor _ _ (Or.inr rfl)]
      exact hor_entries_wf _ _ _ hrange (fun r hr => List.mem_range.1 hr)
    case up =>
      rw [lineResults_ver _ _ (Or.inl rfl)]
      exact ver_entries_wf _ _ _ hrange (fun c hc => List.mem_range.1 hc)
    case down =>
      rw [lineResults_ver _ _ (Or.inr rfl)]
      exact ver_entries_wf _ _ _ hrange (fun c hc => List.mem_range.1 hc)

theorem moveTiles_length_le {tiles : List Tile} (dir : Direction) (hwf : WellFormed tiles) :
    (moveTiles tiles dir).tiles.length ≤ tiles.length := by
  have hwfc := wf_clearFlags hwf
  have hclen : (tiles.map clearFlags).length = tiles.length := List.length_map _ _
  cases hb : (lineResults (tiles.map clearFlags) dir).any (·.moved)
  · rw [moveTiles_of_not_moved hb]
    simp
  · rw [moveTiles_of_moved hb]
    show (List.insertionSort tileOrder _).length ≤ _
    rw [(List.perm_insertionSort tileOrder _).length_eq, List.length_flatten]
    cases dir
    case left =>
      rw [lineResults_hor _ _ (Or.inl rfl)]
      calc (((List.range BOARD_SIZE).map (horEntry (tiles.map clearFlags) Direction.left)).map
              (·.tiles) |>.map List.length).sum
          ≤ (((List.range BOARD_SIZE).map
              (fun r => rowTilesOf (tiles.map clearFlags) r)).map List.length).sum :=
            hor_entries_length _ _ _
        _ = ((List.range BOARD_SIZE).map
              (fun r => rowTilesOf (tiles.map clearFlags) r)).flatten.length :=
            (List.length_flatten _).symm
        _ = tiles.length := by rw [(rows_flatten_perm hwfc).length_eq, hclen]
    case right =>
      rw [lineResults_hor _ _ (Or.inr rfl)]
      calc (((List.range BOARD_SIZE).map (horEntry (tiles.map clearFlags) Direction.right)).map
              (·.tiles) |>.map List.length).sum
          ≤ (((List.range BOARD_SIZE).map
              (fun r => rowTilesOf (tiles.map clearFlags) r)).map List.length).sum :=
            hor_entries_length _ _ _
        _ = ((List.range BOARD_SIZE).map
              (fun r => rowTilesOf (tiles.map clearFlags) r)).flatten.length :=
            (List.length_flatten _).symm
        _ = tiles.length := by rw [(rows_flatten_perm hwfc).length_eq, hclen]
    case up =>
      rw [lineResults_ver _ _ (Or.inl rfl)]
      calc (((List.range BOARD_SIZE).map (verEntry (tiles.map clearFlags) Direction.up)).map
              (·.tiles) |>.map List.length).sum
          ≤ (((List.range BOARD_SIZE).map
              (fun c => colTilesOf (tiles.map clearFlags) c)).map List.length).sum :=
            ver_entries_length _ _ _
        _ = ((List.range BOARD_SIZE).map
              (fun c => colTilesOf (tiles.map clearFlags) c)).flatten.length :=
            (List.length_flatten _).symm
        _ = tiles.length := by rw [(cols_flatten_perm hwfc).length_eq, hclen]
    case down =>
      rw [lineResults_ver _ _ (Or.inr rfl)]
      calc (((List.range BOARD_SIZE).map (verEntry (tiles.map clearFlags) Direction.down)).map
              (·.tiles) |>.map List.length).sum
          ≤ (((List.range BOARD_SIZE).map
              (fun c => colTilesOf (tiles.map clearFlags) c)).map List.length).sum :=
            ver_entries_length _ _ _
        _ = ((List.range BOARD_SIZE).map
              (fun c => colTilesOf (tiles.map clearFlags) c)).flatten.length :=
            (List.length_flatten _).symm
        _ = tiles.length := by rw [(cols_flatten_perm hwfc).length_eq, hclen]

/-!  The tile spawner and the empty-cell scan. -/

theorem isOccupied_false_iff (tiles : List Tile) (r c : Nat) :
    isOccupied tiles r c = false ↔ ∀ t ∈ tiles, ¬(t.row = r ∧ t.col = c) := by
  unfold isOccupied
  rw [← Bool.not_eq_true, List.any_eq_true]
  simp

theorem isOccupied_true_iff (tiles : List Tile) (r c : Nat) :
    isOccupied tiles r c = true ↔ ∃ t ∈ tiles, t.row = r ∧ t.col = c := by
  unfold isOccupied
  rw [List.any_eq_true]
  simp

theorem mem_getEmptyPositions {tiles : List Tile} {p : Coordinates} :
    p ∈ getEmptyPositions tiles ↔
      p.row < BOARD_SIZE ∧ p.col < BOARD_SIZE ∧ isOccupied tiles p.row p.col = false := by
  unfold getEmptyPositions
  rw [List.mem_flatMap]
  constructor
  · rintro ⟨r, hr, hp⟩
    rw [List.mem_filterMap] at hp
    obtain ⟨c, hc, hpc⟩ := hp
    by_cases ho : isOccupied tiles r c
    · rw [if_pos ho] at hpc
      exact absurd hpc (by simp)
    · rw [if_neg ho] at hpc
      obtain rfl := Option.some_injective _ hpc
      exact ⟨List.mem_range.1 hr, List.mem_range.1 hc,
        Bool.not_eq_true _ ▸ (by simpa using ho)⟩
  · rintro ⟨hr, hc, ho⟩
    refine ⟨p.row, List.mem_range.2 hr, ?_⟩
    rw [List.mem_filterMap]
    exact ⟨p.col, List.mem_range.2 hc, by rw [if_neg (by simp [ho])]⟩

theorem wf_spawn_append {tiles : List Tile} (hwf : WellFormed tiles) {p : Coordinates}
    (hp : p ∈ getEmptyPositions tiles) (i v : Nat) :
    WellFormed (tiles ++ [⟨i, v, p.row, p.col, true, false⟩]) := by
  obtain ⟨hr, hc, ho⟩ := mem_getEmptyPositions.1 hp
  have hno := (isOccupied_false_iff tiles p.row p.col).1 ho
  constructor
  · intro t ht
    rcases List.mem_append.1 ht with ht | ht
    · exact hwf.1 t ht
    · rw [List.mem_singleton] at ht
      subst ht
      exact ⟨hr, hc⟩
  · rw [List.pairwise_append]
    refine ⟨hwf.2, List.pairwise_singleton _ _, ?_⟩
    intro a ha b hb
    rw [List.mem_singleton] at hb
    subst hb
    intro he
    exact hno a ha ⟨congrArg Prod.fst he, congrArg Prod.snd he⟩

theorem getEmptyPositions_choice_mem {tiles : List Tile}
    (hne : (getEmptyPositions tiles).isEmpty = false) (k : Nat) :
    (getEmptyPositions tiles).getD (k % (getEmptyPositions tiles).length) ⟨0, 0⟩
      ∈ getEmptyPositions tiles := by
  have hpos : 0 < (getEmptyPositions tiles).length := by
    rw [List.isEmpty_eq_false] at hne
    exact List.length_pos.2 hne
  have hlt : k % (getEmptyPositions tiles).length < (getEmptyPositions tiles).length :=
    Nat.mod_lt _ hpos
  rw [List.getD_eq_getElem _ _ hlt]
  exact List.getElem_mem hlt

theorem addRandomTile_wf {tiles : List Tile} (hwf : WellFormed tiles)
    (newId rollPos : Nat) (rollFour : Bool) :
    WellFormed (addRandomTile tiles newId rollPos rollFour) := by
  unfold addRandomTile
  by_cases he : (getEmptyPositions tiles).isEmpty
  · rw [if_pos he]
    exact hwf
  · rw [if_neg he]
    exact wf_spawn_append hwf
      (getEmptyPositions_choice_mem (Bool.not_eq_true _ ▸ (by simpa using he)) rollPos) _ _

theorem generateInitialTilesGo_wf :
    ∀ (count idCounter : Nat) (rolls : List (Nat × Bool)) (tiles : List Tile),
      WellFormed tiles → WellFormed (generateInitialTilesGo count idCounter rolls tiles)
  | 0, _, _, tiles => fun hwf => hwf
  | _ + 1, _, [], tiles => fun hwf => hwf
  | count + 1, idCounter, roll :: rolls, tiles => by
    intro hwf
    unfold generateInitialTilesGo
    by_cases he : (getEmptyPositions tiles).isEmpty
    · rw [if_pos he]
      exact hwf
    · rw [if_neg he]
      exact generateInitialTilesGo_wf count (idCounter + 1) rolls _
        (wf_spawn_append hwf
          (getEmptyPositions_choice_mem (Bool.not_eq_true _ ▸ (by simpa using he)) roll.1) _ _)

theorem generateInitialTiles_wf (rolls : List (Nat × Bool)) :
    WellFormed (generateInitialTiles rolls) :=
  generateInitialTilesGo_wf INITIAL_TILES 0 rolls [] ⟨by simp, List.Pairwise.nil⟩

/-!  Counting cells. -/

theorem mem_cellList {p : Nat × Nat} :
    p ∈ cellList ↔ p.1 < BOARD_SIZE ∧ p.2 < BOARD_SIZE := by
  unfold cellList
  rw [List.mem_flatMap]
  constructor
  · rintro ⟨r, hr, hp⟩
    rw [List.mem_map] at hp
    obtain ⟨c, hc, rfl⟩ := hp
    exact ⟨List.mem_range.1 hr, List.mem_range.1 hc⟩
  · rintro ⟨h1, h2⟩
    exact ⟨p.1, List.mem_range.2 h1, List.mem_map.2 ⟨p.2, List.mem_range.2 h2, rfl⟩⟩

theorem wf_length_le {tiles : List Tile} (hwf : WellFormed tiles) :
    tiles.length ≤ BOARD_SIZE * BOARD_SIZE := by
  have hnd : (tiles.map posOf).Nodup := List.Pairwise.map posOf (fun a b h => h) hwf.2
  have hsub : (tiles.map posOf) ⊆ cellList := by
    intro p hp
    rw [List.mem_map] at hp
    obtain ⟨t, ht, rfl⟩ := hp
    exact mem_cellList.2 ⟨(hwf.1 t ht).1, (hwf.1 t ht).2⟩
  have := (List.subperm_of_subset hnd hsub).length_le
  rw [List.length_map] at this
  calc tiles.length ≤ cellList.length := this
    _ = BOARD_SIZE * BOARD_SIZE := by decide

theorem empty_exists_of_lt {tiles : List Tile}
    (hlt : tiles.length < BOARD_SIZE * BOARD_SIZE) :
    getEmptyPositions tiles ≠ [] := by
  intro hempty
  have hocc : ∀ r c, r < BOARD_SIZE → c < BOARD_SIZE → isOccupied tiles r c = true := by
    intro r c hr hc
    by_contra ho
    have : (⟨r, c⟩ : Coordinates) ∈ getEmptyPositions tiles :=
      mem_getEmptyPositions.2 ⟨hr, hc, by simpa using ho⟩
    rw [hempty] at this
    exact absurd this (List.not_mem_nil _)
  have hsub : cellList ⊆ tiles.map posOf := by
    intro p hp
    obtain ⟨h1, h2⟩ := mem_cellList.1 hp
    obtain ⟨t, ht, hrc⟩ := (isOccupied_true_iff tiles p.1 p.2).1 (hocc p.1 p.2 h1 h2)
    rw [List.mem_map]
    exact ⟨t, ht, by simp [posOf, hrc.1, hrc.2]⟩
  have hcnd : cellList.Nodup := by decide
  have := (List.subperm_of_subset hcnd hsub).length_le
  rw [List.length_map] at this
  have hc16 : cellList.length = BOARD_SIZE * BOARD_SIZE := by decide
  omega

theorem slideRowAux_values (rowIdx : Nat) (dir : Direction) :
    ∀ (l : List Tile) (ti : Nat), ∀ u ∈ (slideRowAux rowIdx dir l ti).tiles,
      ∃ t ∈ l, u.id = t.id ∧
        ((u.value = t.value ∧ u.justMerged = false) ∨
         (u.value = t.value * 2 ∧ u.justMerged = true))
  | [], _ => by simp [slideRowAux]
  | [t], ti => by
    intro u hu
    simp only [slideRowAux, List.mem_singleton] at hu
    subst hu
    exact ⟨t, List.mem_singleton.2 rfl, rfl, Or.inl ⟨rfl, rfl⟩⟩
  | t :: n :: rest, ti => by
    intro u hu
    by_cases hv : n.value = t.value
    · simp only [slideRowAux, hv, if_true, List.mem_cons] at hu
      rcases hu with rfl | hu
      · exact ⟨t, List.mem_cons_self t _, rfl, Or.inr ⟨rfl, rfl⟩⟩
      · obtain ⟨v, hv2, h⟩ := slideRowAux_values rowIdx dir rest (ti + 1) u hu
        exact ⟨v, List.mem_cons_of_mem t (List.mem_cons_of_mem n hv2), h⟩
    · simp only [slideRowAux, hv, ite_false, List.mem_cons] at hu
      rcases hu with rfl | hu
      · exact ⟨t, List.mem_cons_self t _, rfl, Or.inl ⟨rfl, rfl⟩⟩
      · obtain ⟨v, hv2, h⟩ := slideRowAux_values rowIdx dir (n :: rest) (ti + 1) u hu
        exact ⟨v, List.mem_cons_of_mem t hv2, h⟩

/-!  The game-session step. -/

theorem handleMove_not_moved {s : GameState} {dir : Direction}
    (h : (moveTiles s.tiles dir).moved = false) (rollPos : Nat) (rollFour : Bool) :
    handleMove s dir rollPos rollFour = s := by
  by_cases hg : s.gameOver
  · simp [handleMove, hg]
  · simp [handleMove, hg, h]

theorem handleMove_moved_eq {s : GameState} {dir : Direction}
    (hg : s.gameOver = false) (hm : (moveTiles s.tiles dir).moved = true)
    (rollPos : Nat) (rollFour : Bool) :
    handleMove s dir rollPos rollFour =
      { tiles := addRandomTile (moveTiles s.tiles dir).tiles (s.nextId + 1) rollPos rollFour
        score := s.score + (moveTiles s.tiles dir).scoreGained
        bestScore := max s.bestScore (s.score + (moveTiles s.tiles dir).scoreGained)
        hasWon := s.hasWon || containsTargetTile
          (addRandomTile (moveTiles s.tiles dir).tiles (s.nextId + 1) rollPos rollFour) 2048
        gameOver := !hasAvailableMoves
          (addRandomTile (moveTiles s.tiles dir).tiles (s.nextId + 1) rollPos rollFour)
        nextId := s.nextId + 1 } := by
  simp [handleMove, hg, hm]

/-!  The claims. -/

/-- C1: merge step of the line collapse: when the immediately following tile
in sorted scan order has the same value, the current tile is doubled and
marked `justMerged`, the doubled value is added to the line score, and the
following tile is consumed (its id is absent from the output when ids are
unique); concretely, the two-tile board `2|2` moved left collapses to one
`justMerged` tile of value 4 at `(0,0)` with `moved = true` and score 4. -/
theorem slideRow_merge_spec :
    (∀ (rowIdx targetIndex : Nat) (dir : Direction) (tile nextTile : Tile) (rest : List Tile),
      nextTile.value = tile.value →
      slideRowAux rowIdx dir (tile :: nextTile :: rest) targetIndex =
        ⟨(⟨tile.id, tile.value * 2, rowIdx,
            if dir = Direction.left then targetIndex else BOARD_SIZE - 1 - targetIndex,
            tile.isNew, true⟩ : Tile)
            :: (slideRowAux rowIdx dir rest (targetIndex + 1)).tiles,
          true,
          tile.value * 2 + (slideRowAux rowIdx dir rest (targetIndex + 1)).score⟩) ∧
    (∀ (rowIdx targetIndex : Nat) (dir : Direction) (tile nextTile : Tile) (rest : List Tile),
      nextTile.value = tile.value →
      nextTile.id ∉ (tile :: rest).map Tile.id →
      nextTile.id ∉
        ((slideRowAux rowIdx dir (tile :: nextTile :: rest) targetIndex).tiles.map Tile.id)) ∧
    moveTiles [⟨1, 2, 0, 0, false, false⟩, ⟨2, 2, 0, 1, false, false⟩] Direction.left =
      ⟨[⟨1, 4, 0, 0, false, true⟩], true, 4⟩ := by
  refine ⟨?_, ?_, by decide⟩
  · intro rowIdx ti dir t n rest h
    simp [slideRowAux, h]
  · intro rowIdx ti dir t n rest h hni hmem
    simp only [slideRowAux, h, if_true, List.map_cons, List.mem_cons] at hmem
    simp only [List.map_cons, List.mem_cons] at hni
    rcases hmem with he | hmem
    · exact hni (Or.inl he)
    · rw [List.mem_map] at hmem
      obtain ⟨u, hu, he⟩ := hmem
      have := slideRowAux_ids rowIdx dir rest (ti + 1) u hu
      rw [he] at this
      exact hni (Or.inr this)

/-- Witness for C1 at a concrete merging pair. -/
theorem slideRow_merge_spec_witness :
    slideRowAux 0 Direction.left
        [⟨1, 2, 0, 0, false, false⟩, ⟨2, 2, 0, 5, false, false⟩] 0 =
      ⟨[⟨1, 4, 0, 0, false, true⟩], true, 4⟩ := by
  have h := slideRow_merge_spec.1 0 0 Direction.left
    ⟨1, 2, 0, 0, false, false⟩ ⟨2, 2, 0, 5, false, false⟩ [] rfl
  exact h.trans (by decide)

/-- C2: each tile participates in at most one merge per move — every output
tile of the scan carries either the value of its source tile (not merged)
or exactly double that value (merged once); a produced tile never merges
again, so the full-row board `2|2|2|2` moved left yields `4|4` at columns
0 and 1 with score 8, not a single 8. -/
theorem slideRow_no_chain_spec :
    (∀ (rowIdx targetIndex : Nat) (dir : Direction) (l : List Tile),
      ∀ u ∈ (slideRowAux rowIdx dir l targetIndex).tiles,
        ∃ t ∈ l, u.id = t.id ∧
          ((u.value = t.value ∧ u.justMerged = false) ∨
           (u.value = t.value * 2 ∧ u.justMerged = true))) ∧
    moveTiles [⟨1, 2, 0, 0, false, false⟩, ⟨2, 2, 0, 1, false, false⟩,
        ⟨3, 2, 0, 2, false, false⟩, ⟨4, 2, 0, 3, false, false⟩] Direction.left =
      ⟨[⟨1, 4, 0, 0, false, true⟩, ⟨3, 4, 0, 1, false, true⟩], true, 8⟩ :=
  ⟨fun rowIdx ti dir l => slideRowAux_values rowIdx dir l ti, by decide⟩

/-- Witness for C2 at a concrete line. -/
theorem slideRow_no_chain_spec_witness :
    ∃ t ∈ [(⟨7, 2, 0, 0, false, false⟩ : Tile), ⟨8, 2, 0, 1, false, false⟩],
      (⟨7, 4, 0, 0, false, true⟩ : Tile).id = t.id ∧
        (((⟨7, 4, 0, 0, false, true⟩ : Tile).value = t.value ∧
            (⟨7, 4, 0, 0, false, true⟩ : Tile).justMerged = false) ∨
         ((⟨7, 4, 0, 0, false, true⟩ : Tile).value = t.value * 2 ∧
            (⟨7, 4, 0, 0, false, true⟩ : Tile).justMerged = true)) :=
  slideRow_no_chain_spec.1 0 0 Direction.left
    [⟨7, 2, 0, 0, false, false⟩, ⟨8, 2, 0, 1, false, false⟩]
    ⟨7, 4, 0, 0, false, true⟩ (by decide)

/-- C3: a `moved = false` result returns exactly the input tiles with the
`isNew`/`justMerged` annotations cleared and a zero score, and the session
ignores such a move entirely: no spawn, no score/best/win/game-over
change. -/
theorem moveTiles_noop_spec (tiles : List Tile) (dir : Direction) :
    ((moveTiles tiles dir).moved = false →
      (moveTiles tiles dir).tiles
          = tiles.map (fun t => { t with isNew := false, justMerged := false }) ∧
      (moveTiles tiles dir).scoreGained = 0) ∧
    (∀ (s : GameState) (rollPos : Nat) (rollFour : Bool), s.tiles = tiles →
      (moveTiles tiles dir).moved = false → handleMove s dir rollPos rollFour = s) := by
  constructor
  · intro h
    rw [moveTiles_moved_iff] at h
    rw [moveTiles_of_not_moved h]
    exact ⟨rfl, rfl⟩
  · intro s rollPos rollFour hs h
    exact handleMove_not_moved (by rw [hs]; exact h) rollPos rollFour

/-- Witness for C3: a single tile already on the right edge; the session
state is untouched. -/
theorem moveTiles_noop_spec_witness :
    handleMove ⟨[⟨1, 2, 0, 3, false, false⟩], 5, 7, false, false, 3⟩ Direction.right 0 false
      = ⟨[⟨1, 2, 0, 3, false, false⟩], 5, 7, false, false, 3⟩ :=
  (moveTiles_noop_spec [⟨1, 2, 0, 3, false, false⟩] Direction.right).2
    ⟨[⟨1, 2, 0, 3, false, false⟩], 5, 7, false, false, 3⟩ 0 false rfl (by decide)

/-- C4: collapsing a well-formed board preserves the sum of tile values
(merges double one tile but consume its partner). -/
theorem moveTiles_conservation (tiles : List Tile) (dir : Direction)
    (hwf : WellFormed tiles) :
    sumValues (moveTiles tiles dir).tiles = sumValues tiles :=
  moveTiles_sum dir hwf

/-- Witness for C4 on a concrete merging board. -/
theorem moveTiles_conservation_witness :
    sumValues (moveTiles [⟨1, 2, 0, 0, false, false⟩, ⟨2, 2, 0, 1, false, false⟩]
        Direction.left).tiles
      = sumValues [⟨1, 2, 0, 0, false, false⟩, ⟨2, 2, 0, 1, false, false⟩] :=
  moveTiles_conservation _ Direction.left (by decide)

/-- C5: the occupancy invariant — coordinates inside `[0,4)²` and no two
tiles on one cell — holds for every reachable board and is preserved by
both the move orchestrator and the tile spawner. -/
theorem occupancy_invariant :
    (∀ (tiles : List Tile) (dir : Direction), WellFormed tiles →
      WellFormed (moveTiles tiles dir).tiles) ∧
    (∀ (tiles : List Tile) (newId rollPos : Nat) (rollFour : Bool), WellFormed tiles →
      WellFormed (addRandomTile tiles newId rollPos rollFour)) ∧
    (∀ b : List Tile, Reachable b → WellFormed b) := by
  refine ⟨fun tiles dir hwf => moveTiles_wf dir hwf,
    fun tiles i k f hwf => addRandomTile_wf hwf i k f, ?_⟩
  intro b hb
  induction hb with
  | init rolls => exact generateInitialTiles_wf rolls
  | move b dir hb ih => exact moveTiles_wf dir ih
  | spawn b i k f hb ih => exact addRandomTile_wf ih i k f

/-- Witness for C5 on a concrete board. -/
theorem occupancy_invariant_witness :
    WellFormed (moveTiles [⟨1, 2, 0, 0, false, false⟩] Direction.right).tiles :=
  occupancy_invariant.1 [⟨1, 2, 0, 0, false, false⟩] Direction.right (by decide)

/-- C8: `containsTargetTile board target` is true iff some tile's value is
at least `target`; in particular any board holding a 4096 tile satisfies
the 2048 win check. -/
theorem containsTargetTile_spec (tiles : List Tile) (target : Nat) :
    (containsTargetTile tiles target = true ↔ ∃ t ∈ tiles, target ≤ t.value) ∧
    (∀ t ∈ tiles, t.value = 4096 → containsTargetTile tiles 2048 = true) := by
  constructor
  · unfold containsTargetTile
    rw [List.any_eq_true]
    simp
  · intro t ht hv
    unfold containsTargetTile
    rw [List.any_eq_true]
    refine ⟨t, ht, ?_⟩
    rw [hv]
    decide

/-- Witness for C8 on a board with a 4096 tile. -/
theorem containsTargetTile_spec_witness :
    containsTargetTile [⟨1, 4096, 2, 3, false, false⟩] 2048 = true :=
  (containsTargetTile_spec [⟨1, 4096, 2, 3, false, false⟩] 2048).2
    ⟨1, 4096, 2, 3, false, false⟩ (List.mem_singleton.2 rfl) rfl

/-- C9: across a `Move` transition the score never decreases: a rejected
move leaves the state untouched, an accepted move adds the (non-negative)
gained score and updates the best score to the maximum of its old value
and the new score. -/
theorem handleMove_score_monotone (s : GameState) (dir : Direction)
    (rollPos : Nat) (rollFour : Bool) :
    s.score ≤ (handleMove s dir rollPos rollFour).score ∧
    ((moveTiles s.tiles dir).moved = false → handleMove s dir rollPos rollFour = s) ∧
    (s.gameOver = false → (moveTiles s.tiles dir).moved = true →
      (handleMove s dir rollPos rollFour).score
          = s.score + (moveTiles s.tiles dir).scoreGained ∧
      (handleMove s dir rollPos rollFour).bestScore
          = max s.bestScore (handleMove s dir rollPos rollFour).score) := by
  refine ⟨?_, fun h => handleMove_not_moved h rollPos rollFour, fun hg hm => ?_⟩
  · by_cases hg : s.gameOver
    · simp [handleMove, hg]
    · by_cases hm : (moveTiles s.tiles dir).moved
      · rw [handleMove_moved_eq (by simpa using hg) hm]
        exact Nat.le_add_right _ _
      · rw [handleMove_not_moved (by simpa using hm)]
  · rw [handleMove_moved_eq hg hm]
    exact ⟨rfl, rfl⟩

/-- Witness for C9 at a concrete accepted move. -/
theorem handleMove_score_monotone_witness :
    (handleMove ⟨[⟨1, 2, 0, 0, false, false⟩, ⟨2, 2, 0, 1, false, false⟩], 10, 12,
        false, false, 2⟩ Direction.left 0 false).score = 10 + 4 ∧
    (handleMove ⟨[⟨1, 2, 0, 0, false, false⟩, ⟨2, 2, 0, 1, false, false⟩], 10, 12,
        false, false, 2⟩ Direction.left 0 false).bestScore = max 12 14 := by
  have h := (handleMove_score_monotone
    ⟨[⟨1, 2, 0, 0, false, false⟩, ⟨2, 2, 0, 1, false, false⟩], 10, 12, false, false, 2⟩
    Direction.left 0 false).2.2 rfl (by decide)
  constructor
  · rw [h.1]
    decide
  · rw [h.2, h.1]
    decide

/-- C10: a merge keeps the id of the earlier tile in scan order (the one
nearer the destination edge) as the survivor carrying the doubled value,
the consumed partner id disappears, and no output tile of a line collapse
carries a fresh id. -/
theorem slide_merge_survivor_spec :
    (∀ (rowIdx targetIndex : Nat) (dir : Direction) (tile nextTile : Tile) (rest : List Tile),
      nextTile.value = tile.value →
      ((slideRowAux rowIdx dir (tile :: nextTile :: rest) targetIndex).tiles.map
          (fun u => (u.id, u.value, u.justMerged))).head?
        = some (tile.id, tile.value * 2, true)) ∧
    (∀ (colIdx targetIndex : Nat) (dir : Direction) (tile nextTile : Tile) (rest : List Tile),
      nextTile.value = tile.value →
      ((slideColumnAux colIdx dir (tile :: nextTile :: rest) targetIndex).tiles.map
          (fun u => (u.id, u.value, u.justMerged))).head?
        = some (tile.id, tile.value * 2, true)) ∧
    (∀ (rowIdx targetIndex : Nat) (dir : Direction) (l : List Tile),
      ∀ u ∈ (slideRowAux rowIdx dir l targetIndex).tiles, u.id ∈ l.map Tile.id) ∧
    (∀ (colIdx targetIndex : Nat) (dir : Direction) (l : List Tile),
      ∀ u ∈ (slideColumnAux colIdx dir l targetIndex).tiles, u.id ∈ l.map Tile.id) ∧
    (∀ (colIdx targetIndex : Nat) (dir : Direction) (tile nextTile : Tile) (rest : List Tile),
      nextTile.value = tile.value →
      nextTile.id ∉ (tile :: rest).map Tile.id →
      nextTile.id ∉
        ((slideColumnAux colIdx dir (tile :: nextTile :: rest) targetIndex).tiles.map
          Tile.id)) := by
  refine ⟨?_, ?_, fun rowIdx ti dir l => slideRowAux_ids rowIdx dir l ti,
    fun colIdx ti dir l => slideColumnAux_ids colIdx dir l ti, ?_⟩
  · intro rowIdx ti dir t n rest h
    simp [slideRowAux, h]
  · intro colIdx ti dir t n rest h
    simp [slideColumnAux, h]
  · intro colIdx ti dir t n rest h hni hmem
    simp only [slideColumnAux, h, if_true, List.map_cons, List.mem_cons] at hmem
    simp only [List.map_cons, List.mem_cons] at hni
    rcases hmem with he | hmem
    · exact hni (Or.inl he)
    · rw [List.mem_map] at hmem
      obtain ⟨u, hu, he⟩ := hmem
      have := slideColumnAux_ids colIdx dir rest (ti + 1) u hu
      rw [he] at this
      exact hni (Or.inr this)

/-- Witness for C10 at a concrete merging pair in a column. -/
theorem slide_merge_survivor_spec_witness :
    ((slideColumnAux 0 Direction.up
        [⟨3, 8, 2, 0, false, false⟩, ⟨9, 8, 3, 0, false, false⟩] 0).tiles.map
      (fun u => (u.id, u.value, u.justMerged))).head? = some (3, 16, true) :=
  slide_merge_survivor_spec.2.1 0 0 Direction.up
    ⟨3, 8, 2, 0, false, false⟩ ⟨9, 8, 3, 0, false, false⟩ [] rfl

/-- C6: `hasAvailableMoves` is true on every board with fewer than 16
tiles; on a full well-formed 16-tile board its right/down-only scan is
exhaustive: it returns true exactly when some pair of orthogonally
adjacent tiles (in any of the four directions) has equal values. -/
theorem hasAvailableMoves_spec (tiles : List Tile) :
    (tiles.length < BOARD_SIZE * BOARD_SIZE → hasAvailableMoves tiles = true) ∧
    (WellFormed tiles → tiles.length = BOARD_SIZE * BOARD_SIZE →
      (hasAvailableMoves tiles = true ↔
        ∃ a ∈ tiles, ∃ b ∈ tiles, a.value = b.value ∧ OrthAdjacent a b)) := by
  constructor
  · intro hlt
    unfold hasAvailableMoves
    rw [if_pos hlt]
  · intro hwf hlen
    unfold hasAvailableMoves
    rw [if_neg (by omega)]
    constructor
    · intro hscan
      obtain ⟨r, hr, hscan⟩ := List.any_eq_true.1 hscan
      obtain ⟨c, hc, hinner⟩ := List.any_eq_true.1 hscan
      cases hg : gridLookup tiles r c with
      | none =>
        rw [hg] at hinner
        exact absurd hinner (by simp)
      | some tile =>
        rw [hg] at hinner
        obtain ⟨htm, htr, htc⟩ := gridLookup_mem hg
        rw [Bool.or_eq_true] at hinner
        rcases hinner with hright | hdown
        · by_cases hc1 : c + 1 < BOARD_SIZE
          · rw [if_pos hc1] at hright
            cases hg2 : gridLookup tiles r (c + 1) with
            | none =>
              rw [hg2] at hright
              exact absurd hright (by simp)
            | some right =>
              rw [hg2] at hright
              obtain ⟨hrm, hrr, hrc⟩ := gridLookup_mem hg2
              refine ⟨tile, htm, right, hrm, (beq_iff_eq.1 hright).symm, Or.inl ⟨?_, Or.inl ?_⟩⟩
              · rw [htr, hrr]
              · rw [htc, hrc]
          · rw [if_neg hc1] at hright
            exact absurd hright (by simp)
        · by_cases hr1 : r + 1 < BOARD_SIZE
          · rw [if_pos hr1] at hdown
            cases hg2 : gridLookup tiles (r + 1) c with
            | none =>
              rw [hg2] at hdown
              exact absurd hdown (by simp)
            | some down =>
              rw [hg2] at hdown
              obtain ⟨hdm, hdr, hdc⟩ := gridLookup_mem hg2
              refine ⟨tile, htm, down, hdm, (beq_iff_eq.1 hdown).symm,
                Or.inr ⟨?_, Or.inl ?_⟩⟩
              · rw [htc, hdc]
              · rw [htr, hdr]
          · rw [if_neg hr1] at hdown
            exact absurd hdown (by simp)
    · rintro ⟨a, ha, b, hb, hv, hadj⟩
      rcases hadj with ⟨hrow, hcc⟩ | ⟨hcol, hrr⟩
      · rcases hcc with hcc | hcc
        · refine List.any_eq_true.2 ⟨a.row, List.mem_range.2 (hwf.1 a ha).1, ?_⟩
          refine List.any_eq_true.2 ⟨a.col, List.mem_range.2 (hwf.1 a ha).2, ?_⟩
          have h1 : gridLookup tiles a.row a.col = some a := gridLookup_eq_some_of hwf ha
          have h2 : gridLookup tiles a.row (a.col + 1) = some b := by
            have hx := gridLookup_eq_some_of hwf hb
            rw [hrow, hcc]
            exact hx
          have hlt : a.col + 1 < BOARD_SIZE := by
            rw [hcc]
            exact (hwf.1 b hb).2
          rw [h1, if_pos hlt, h2]
          simp [hv]
        · refine List.any_eq_true.2 ⟨b.row, List.mem_range.2 (hwf.1 b hb).1, ?_⟩
          refine List.any_eq_true.2 ⟨b.col, List.mem_range.2 (hwf.1 b hb).2, ?_⟩
          have h1 : gridLookup tiles b.row b.col = some b := gridLookup_eq_some_of hwf hb
          have h2 : gridLookup tiles b.row (b.col + 1) = some a := by
            have hx := gridLookup_eq_some_of hwf ha
            rw [← hrow, hcc]
            exact hx
          have hlt : b.col + 1 < BOARD_SIZE := by
            rw [hcc]
            exact (hwf.1 a ha).2
          rw [h1, if_pos hlt, h2]
          simp [hv]
      · rcases hrr with hrr | hrr
        · refine List.any_eq_true.2 ⟨a.row, List.mem_range.2 (hwf.1 a ha).1, ?_⟩
          refine List.any_eq_true.2 ⟨a.col, List.mem_range.2 (hwf.1 a ha).2, ?_⟩
          have h1 : gridLookup tiles a.row a.col = some a := gridLookup_eq_some_of hwf ha
          have h2 : gridLookup tiles (a.row + 1) a.col = some b := by
            have hx := gridLookup_eq_some_of hwf hb
            rw [hcol, hrr]
            exact hx
          have hlt : a.row + 1 < BOARD_SIZE := by
            rw [hrr]
            exact (hwf.1 b hb).1
          rw [h1, if_pos hlt, h2]
          simp [hv]
        · refine List.any_eq_true.2 ⟨b.row, List.mem_range.2 (hwf.1 b hb).1, ?_⟩
          refine List.any_eq_true.2 ⟨b.col, List.mem_range.2 (hwf.1 b hb).2, ?_⟩
          have h1 : gridLookup tiles b.row b.col = some b := gridLookup_eq_some_of hwf hb
          have h2 : gridLookup tiles (b.row + 1) b.col = some a := by
            have hx := gridLookup_eq_some_of hwf ha
            rw [← hcol, hrr]
            exact hx
          have hlt : b.row + 1 < BOARD_SIZE := by
            rw [hrr]
            exact (hwf.1 a ha).1
          rw [h1, if_pos hlt, h2]
          simp [hv]

/-- Witness for C6: a full board whose only equal-valued neighbours are the
two value-2 tiles at `(2,2)` and `(3,2)`; the scan reports a move. -/
theorem hasAvailableMoves_spec_witness :
    hasAvailableMoves
      [⟨1, 2, 0, 0, false, false⟩, ⟨2, 4, 0, 1, false, false⟩,
       ⟨3, 8, 0, 2, false, false⟩, ⟨4, 16, 0, 3, false, false⟩,
       ⟨5, 32, 1, 0, false, false⟩, ⟨6, 64, 1, 1, false, false⟩,
       ⟨7, 128, 1, 2, false, false⟩, ⟨8, 256, 1, 3, false, false⟩,
       ⟨9, 512, 2, 0, false, false⟩, ⟨10, 1024, 2, 1, false, false⟩,
       ⟨11, 2, 2, 2, false, false⟩, ⟨12, 4, 2, 3, false, false⟩,
       ⟨13, 8, 3, 0, false, false⟩, ⟨14, 16, 3, 1, false, false⟩,
       ⟨15, 2, 3, 2, false, false⟩, ⟨16, 32, 3, 3, false, false⟩] = true :=
  ((hasAvailableMoves_spec _).2 (by decide) (by decide)).mpr
    ⟨⟨11, 2, 2, 2, false, false⟩, by decide, ⟨15, 2, 3, 2, false, false⟩, by decide,
      rfl, Or.inr ⟨rfl, Or.inl rfl⟩⟩

/-!  Full boards: every cell is occupied and an accepted move must merge. -/

theorem full_occupied {tiles : List Tile} (hwf : WellFormed tiles)
    (hlen : tiles.length = BOARD_SIZE * BOARD_SIZE) {r c : Nat} (hr : r < BOARD_SIZE)
    (hc : c < BOARD_SIZE) :
    ∃ t, gridLookup tiles r c = some t ∧ t.row = r ∧ t.col = c := by
  have hnd : (tiles.map posOf).Nodup := List.Pairwise.map posOf (fun a b h => h) hwf.2
  have hsub : (tiles.map posOf) ⊆ cellList := by
    intro p hp
    rw [List.mem_map] at hp
    obtain ⟨t, ht, rfl⟩ := hp
    exact mem_cellList.2 ⟨(hwf.1 t ht).1, (hwf.1 t ht).2⟩
  have hcl : cellList.length = BOARD_SIZE * BOARD_SIZE := by decide
  have hperm : (tiles.map posOf).Perm cellList :=
    (List.subperm_of_subset hnd hsub).perm_of_length_le
      (by rw [List.length_map, hlen, hcl])
  have hmem : (r, c) ∈ tiles.map posOf := hperm.mem_iff.2 (mem_cellList.2 ⟨hr, hc⟩)
  obtain ⟨t, ht, hpos⟩ := List.mem_map.1 hmem
  have htr : t.row = r := congrArg Prod.fst hpos
  have htc : t.col = c := congrArg Prod.snd hpos
  refine ⟨t, ?_, htr, htc⟩
  rw [← htr, ← htc]
  exact gridLookup_eq_some_of hwf ht

theorem rowTilesOf_full {tiles : List Tile} (hwf : WellFormed tiles)
    (hlen : tiles.length = BOARD_SIZE * BOARD_SIZE) {r : Nat} (hr : r < BOARD_SIZE) :
    ∃ t0 t1 t2 t3 : Tile,
      rowTilesOf tiles r = [t0, t1, t2, t3] ∧
      (t0.row = r ∧ t0.col = 0) ∧ (t1.row = r ∧ t1.col = 1) ∧
      (t2.row = r ∧ t2.col = 2) ∧ (t3.row = r ∧ t3.col = 3) := by
  obtain ⟨t0, h0, h0p⟩ := full_occupied hwf hlen hr (by decide : (0 : Nat) < BOARD_SIZE)
  obtain ⟨t1, h1, h1p⟩ := full_occupied hwf hlen hr (by decide : (1 : Nat) < BOARD_SIZE)
  obtain ⟨t2, h2, h2p⟩ := full_occupied hwf hlen hr (by decide : (2 : Nat) < BOARD_SIZE)
  obtain ⟨t3, h3, h3p⟩ := full_occupied hwf hlen hr (by decide : (3 : Nat) < BOARD_SIZE)
  refine ⟨t0, t1, t2, t3, ?_, h0p, h1p, h2p, h3p⟩
  unfold rowTilesOf
  rw [show List.range BOARD_SIZE = [0, 1, 2, 3] from rfl]
  simp [List.filterMap_cons, h0, h1, h2, h3]

theorem colTilesOf_full {tiles : List Tile} (hwf : WellFormed tiles)
    (hlen : tiles.length = BOARD_SIZE * BOARD_SIZE) {c : Nat} (hc : c < BOARD_SIZE) :
    ∃ t0 t1 t2 t3 : Tile,
      colTilesOf tiles c = [t0, t1, t2, t3] ∧
      (t0.col = c ∧ t0.row = 0) ∧ (t1.col = c ∧ t1.row = 1) ∧
      (t2.col = c ∧ t2.row = 2) ∧ (t3.col = c ∧ t3.row = 3) := by
  obtain ⟨t0, h0, h0p⟩ := full_occupied hwf hlen (by decide : (0 : Nat) < BOARD_SIZE) hc
  obtain ⟨t1, h1, h1p⟩ := full_occupied hwf hlen (by decide : (1 : Nat) < BOARD_SIZE) hc
  obtain ⟨t2, h2, h2p⟩ := full_occupied hwf hlen (by decide : (2 : Nat) < BOARD_SIZE) hc
  obtain ⟨t3, h3, h3p⟩ := full_occupied hwf hlen (by decide : (3 : Nat) < BOARD_SIZE) hc
  refine ⟨t0, t1, t2, t3, ?_, ⟨h0p.2, h0p.1⟩, ⟨h1p.2, h1p.1⟩, ⟨h2p.2, h2p.1⟩, ⟨h3p.2, h3p.1⟩⟩
  unfold colTilesOf
  rw [show List.range BOARD_SIZE = [0, 1, 2, 3] from rfl]
  simp [List.filterMap_cons, h0, h1, h2, h3]

theorem insertionSort_colAsc_full {t0 t1 t2 t3 : Tile}
    (h0 : t0.col = 0) (h1 : t1.col = 1) (h2 : t2.col = 2) (h3 : t3.col = 3) :
    List.insertionSort colAsc [t0, t1, t2, t3] = [t0, t1, t2, t3] := by
  simp [List.insertionSort, List.orderedInsert, colAsc, h0, h1, h2, h3]

theorem insertionSort_colDesc_full {t0 t1 t2 t3 : Tile}
    (h0 : t0.col = 0) (h1 : t1.col = 1) (h2 : t2.col = 2) (h3 : t3.col = 3) :
    List.insertionSort colDesc [t0, t1, t2, t3] = [t3, t2, t1, t0] := by
  simp [List.insertionSort, List.orderedInsert, colDesc, h0, h1, h2, h3]

theorem insertionSort_rowAsc_full {t0 t1 t2 t3 : Tile}
    (h0 : t0.row = 0) (h1 : t1.row = 1) (h2 : t2.row = 2) (h3 : t3.row = 3) :
    List.insertionSort rowAsc [t0, t1, t2, t3] = [t0, t1, t2, t3] := by
  simp [List.insertionSort, List.orderedInsert, rowAsc, h0, h1, h2, h3]

theorem insertionSort_rowDesc_full {t0 t1 t2 t3 : Tile}
    (h0 : t0.row = 0) (h1 : t1.row = 1) (h2 : t2.row = 2) (h3 : t3.row = 3) :
    List.insertionSort rowDesc [t0, t1, t2, t3] = [t3, t2, t1, t0] := by
  simp [List.insertionSort, List.orderedInsert, rowDesc, h0, h1, h2, h3]

theorem map_sum_le {f g : Nat → Nat} :
    ∀ rs : List Nat, (∀ r ∈ rs, f r ≤ g r) → (rs.map f).sum ≤ (rs.map g).sum
  | [] => fun _ => le_refl _
  | r :: rs => by
    intro hle
    simp only [List.map_cons, List.sum_cons]
    exact Nat.add_le_add (hle r (List.mem_cons_self r rs))
      (map_sum_le rs (fun x hx => hle x (List.mem_cons_of_mem r hx)))

theorem map_sum_lt {f g : Nat → Nat} :
    ∀ rs : List Nat, (∀ r ∈ rs, f r ≤ g r) → (∃ r ∈ rs, f r < g r) →
      (rs.map f).sum < (rs.map g).sum
  | [] => by
    rintro _ ⟨r, hr, -⟩
    cases hr
  | r :: rs => by
    rintro hle ⟨x, hx, hlt⟩
    simp only [List.map_cons, List.sum_cons]
    rcases List.mem_cons.1 hx with rfl | hx
    · exact Nat.add_lt_add_of_lt_of_le hlt
        (map_sum_le rs (fun y hy => hle y (List.mem_cons_of_mem x hy)))
    · exact Nat.add_lt_add_of_le_of_lt (hle r (List.mem_cons_self r rs))
        (map_sum_lt rs (fun y hy => hle y (List.mem_cons_of_mem r hy)) ⟨x, hx, hlt⟩)

theorem slideRowAux_full_line (rowIdx : Nat) (dir : Direction) :
    ∀ (l : List Tile) (ti : Nat),
      (∀ (j : Nat) (h : j < l.length), (l.get ⟨j, h⟩).row = rowIdx ∧
        (l.get ⟨j, h⟩).col =
          (if dir = Direction.left then ti + j else BOARD_SIZE - 1 - (ti + j))) →
      (slideRowAux rowIdx dir l ti).moved = true →
      (slideRowAux rowIdx dir l ti).tiles.length < l.length
  | [], ti => by
    intro hspec hm
    simp [slideRowAux] at hm
  | [t], ti => by
    intro hspec hm
    obtain ⟨hr, hc⟩ := hspec 0 (by simp)
    simp only [List.get] at hr hc
    rw [Nat.add_zero] at hc
    simp only [slideRowAux] at hm
    rw [hc, hr] at hm
    simp at hm
  | t :: n :: rest, ti => by
    intro hspec hm
    by_cases hv : n.value = t.value
    · have hlen := slideRowAux_length rowIdx dir rest (ti + 1)
      simp only [slideRowAux, hv, if_true, List.length_cons] at hm ⊢
      omega
    · obtain ⟨hr, hc⟩ := hspec 0 (by simp)
      simp only [List.get] at hr hc
      rw [Nat.add_zero] at hc
      have htail : ∀ (j : Nat) (h : j < (n :: rest).length),
          ((n :: rest).get ⟨j, h⟩).row = rowIdx ∧
          ((n :: rest).get ⟨j, h⟩).col =
            (if dir = Direction.left then (ti + 1) + j
              else BOARD_SIZE - 1 - ((ti + 1) + j)) := by
        intro j h
        have hx := hspec (j + 1) (Nat.succ_lt_succ h)
        have harith : ti + (j + 1) = ti + 1 + j := by omega
        rw [harith] at hx
        exact hx
      have ih := slideRowAux_full_line rowIdx dir (n :: rest) (ti + 1) htail
      simp only [slideRowAux, hv, ite_false] at hm ⊢
      rw [hc, hr] at hm
      simp only [bne_self_eq_false, Bool.or_self, Bool.false_or] at hm
      have := ih hm
      simp only [List.length_cons] at this ⊢
      omega

theorem slideColumnAux_full_line (colIdx : Nat) (dir : Direction) :
    ∀ (l : List Tile) (ti : Nat),
      (∀ (j : Nat) (h : j < l.length), (l.get ⟨j, h⟩).col = colIdx ∧
        (l.get ⟨j, h⟩).row =
          (if dir = Direction.up then ti + j else BOARD_SIZE - 1 - (ti + j))) →
      (slideColumnAux colIdx dir l ti).moved = true →
      (slideColumnAux colIdx dir l ti).tiles.length < l.length
  | [], ti => by
    intro hspec hm
    simp [slideColumnAux] at hm
  | [t], ti => by
    intro hspec hm
    obtain ⟨hc, hr⟩ := hspec 0 (by simp)
    simp only [List.get] at hr hc
    rw [Nat.add_zero] at hr
    simp only [slideColumnAux] at hm
    rw [hc, hr] at hm
    simp at hm
  | t :: n :: rest, ti => by
    intro hspec hm
    by_cases hv : n.value = t.value
    · have hlen := slideColumnAux_length colIdx dir rest (ti + 1)
      simp only [slideColumnAux, hv, if_true, List.length_cons] at hm ⊢
      omega
    · obtain ⟨hc, hr⟩ := hspec 0 (by simp)
      simp only [List.get] at hr hc
      rw [Nat.add_zero] at hr
      have htail : ∀ (j : Nat) (h : j < (n :: rest).length),
          ((n :: rest).get ⟨j, h⟩).col = colIdx ∧
          ((n :: rest).get ⟨j, h⟩).row =
            (if dir = Direction.up then (ti + 1) + j
              else BOARD_SIZE - 1 - ((ti + 1) + j)) := by
        intro j h
        have hx := hspec (j + 1) (Nat.succ_lt_succ h)
        have harith : ti + (j + 1) = ti + 1 + j := by omega
        rw [harith] at hx
        exact hx
      have ih := slideColumnAux_full_line colIdx dir (n :: rest) (ti + 1) htail
      simp only [slideColumnAux, hv, ite_false] at hm ⊢
      rw [hc, hr] at hm
      simp only [bne_self_eq_false, Bool.or_self, Bool.false_or] at hm
      have := ih hm
      simp only [List.length_cons] at this ⊢
      omega

theorem hor_entry_full_lt {clones : List Tile} (hwfc : WellFormed clones)
    (hclen : clones.length = BOARD_SIZE * BOARD_SIZE) {dir : Direction} {r : Nat}
    (hr : r < BOARD_SIZE) (hm : (horEntry clones dir r).moved = true) :
    (horEntry clones dir r).tiles.length < (rowTilesOf clones r).length := by
  obtain ⟨t0, t1, t2, t3, heq, h0, h1, h2, h3⟩ := rowTilesOf_full hwfc hclen hr
  unfold horEntry at hm ⊢
  rw [heq] at hm ⊢
  rw [if_neg (by simp)] at hm ⊢
  unfold slideRow at hm ⊢
  by_cases hdl : dir = Direction.left
  · rw [if_pos hdl] at hm ⊢
    rw [insertionSort_colAsc_full h0.2 h1.2 h2.2 h3.2] at hm ⊢
    have hspec : ∀ (j : Nat) (h : j < ([t0, t1, t2, t3] : List Tile).length),
        (([t0, t1, t2, t3] : List Tile).get ⟨j, h⟩).row = r ∧
        (([t0, t1, t2, t3] : List Tile).get ⟨j, h⟩).col =
          (if dir = Direction.left then 0 + j else BOARD_SIZE - 1 - (0 + j)) := by
      intro j h
      have h4 : j < 4 := by simpa using h
      interval_cases j <;>
        simp [hdl, List.get, h0.1, h0.2, h1.1, h1.2, h2.1, h2.2, h3.1, h3.2]
    exact slideRowAux_full_line r dir [t0, t1, t2, t3] 0 hspec hm
  · rw [if_neg hdl] at hm ⊢
    rw [insertionSort_colDesc_full h0.2 h1.2 h2.2 h3.2] at hm ⊢
    have hspec : ∀ (j : Nat) (h : j < ([t3, t2, t1, t0] : List Tile).length),
        (([t3, t2, t1, t0] : List Tile).get ⟨j, h⟩).row = r ∧
        (([t3, t2, t1, t0] : List Tile).get ⟨j, h⟩).col =
          (if dir = Direction.left then 0 + j else BOARD_SIZE - 1 - (0 + j)) := by
      intro j h
      have h4 : j < 4 := by simpa using h
      interval_cases j <;>
        simp [hdl, List.get, BOARD_SIZE, h0.1, h0.2, h1.1, h1.2, h2.1, h2.2, h3.1, h3.2]
    exact slideRowAux_full_line r dir [t3, t2, t1, t0] 0 hspec hm

theorem ver_entry_full_lt {clones : List Tile} (hwfc : WellFormed clones)
    (hclen : clones.length = BOARD_SIZE * BOARD_SIZE) {dir : Direction} {c : Nat}
    (hc : c < BOARD_SIZE) (hm : (verEntry clones dir c).moved = true) :
    (verEntry clones dir c).tiles.length < (colTilesOf clones c).length := by
  obtain ⟨t0, t1, t2, t3, heq, h0, h1, h2, h3⟩ := colTilesOf_full hwfc hclen hc
  unfold verEntry at hm ⊢
  rw [heq] at hm ⊢
  rw [if_neg (by simp)] at hm ⊢
  unfold slideColumn at hm ⊢
  by_cases hdu : dir = Direction.up
  · rw [if_pos hdu] at hm ⊢
    rw [insertionSort_rowAsc_full h0.2 h1.2 h2.2 h3.2] at hm ⊢
    have hspec : ∀ (j : Nat) (h : j < ([t0, t1, t2, t3] : List Tile).length),
        (([t0, t1, t2, t3] : List Tile).get ⟨j, h⟩).col = c ∧
        (([t0, t1, t2, t3] : List Tile).get ⟨j, h⟩).row =
          (if dir = Direction.up then 0 + j else BOARD_SIZE - 1 - (0 + j)) := by
      intro j h
      have h4 : j < 4 := by simpa using h
      interval_cases j <;>
        simp [hdu, List.get, h0.1, h0.2, h1.1, h1.2, h2.1, h2.2, h3.1, h3.2]
    exact slideColumnAux_full_line c dir [t0, t1, t2, t3] 0 hspec hm
  · rw [if_neg hdu] at hm ⊢
    rw [insertionSort_rowDesc_full h0.2 h1.2 h2.2 h3.2] at hm ⊢
    have hspec : ∀ (j : Nat) (h : j < ([t3, t2, t1, t0] : List Tile).length),
        (([t3, t2, t1, t0] : List Tile).get ⟨j, h⟩).col = c ∧
        (([t3, t2, t1, t0] : List Tile).get ⟨j, h⟩).row =
          (if dir = Direction.up then 0 + j else BOARD_SIZE - 1 - (0 + j)) := by
      intro j h
      have h4 : j < 4 := by simpa using h
      interval_cases j <;>
        simp [hdu, List.get, BOARD_SIZE, h0.1, h0.2, h1.1, h1.2, h2.1, h2.2, h3.1, h3.2]
    exact slideColumnAux_full_line c dir [t3, t2, t1, t0] 0 hspec hm

theorem hor_full_sum_lt {clones : List Tile} (hwfc : WellFormed clones)
    (hclen : clones.length = BOARD_SIZE * BOARD_SIZE) {dir : Direction}
    (hd : dir = Direction.left ∨ dir = Direction.right)
    (hm : (lineResults clones dir).any (·.moved) = true) :
    (((lineResults clones dir).map (·.tiles)).map List.length).sum < clones.length := by
  rw [lineResults_hor clones dir hd] at hm ⊢
  obtain ⟨lr, hlr, hlrm⟩ := List.any_eq_true.1 hm
  obtain ⟨r, hrr, rfl⟩ := List.mem_map.1 hlr
  rw [List.map_map, List.map_map]
  have hsum : ((List.range BOARD_SIZE).map (fun x => (rowTilesOf clones x).length)).sum
      = clones.length := by
    have h1 := List.length_flatten ((List.range BOARD_SIZE).map (fun x => rowTilesOf clones x))
    rw [List.map_map, (rows_flatten_perm hwfc).length_eq] at h1
    exact h1.symm
  calc ((List.range BOARD_SIZE).map
          (List.length ∘ (fun lr => lr.tiles) ∘ horEntry clones dir)).sum
      < ((List.range BOARD_SIZE).map (fun x => (rowTilesOf clones x).length)).sum := by
        refine map_sum_lt (List.range BOARD_SIZE)
          (fun x _ => hor_entry_length clones dir x) ⟨r, hrr, ?_⟩
        exact hor_entry_full_lt hwfc hclen (List.mem_range.1 hrr) hlrm
    _ = clones.length := hsum

theorem ver_full_sum_lt {clones : List Tile} (hwfc : WellFormed clones)
    (hclen : clones.length = BOARD_SIZE * BOARD_SIZE) {dir : Direction}
    (hd : dir = Direction.up ∨ dir = Direction.down)
    (hm : (lineResults clones dir).any (·.moved) = true) :
    (((lineResults clones dir).map (·.tiles)).map List.length).sum < clones.length := by
  rw [lineResults_ver clones dir hd] at hm ⊢
  obtain ⟨lr, hlr, hlrm⟩ := List.any_eq_true.1 hm
  obtain ⟨c, hcc, rfl⟩ := List.mem_map.1 hlr
  rw [List.map_map, List.map_map]
  have hsum : ((List.range BOARD_SIZE).map (fun x => (colTilesOf clones x).length)).sum
      = clones.length := by
    have h1 := List.length_flatten ((List.range BOARD_SIZE).map (fun x => colTilesOf clones x))
    rw [List.map_map, (cols_flatten_perm hwfc).length_eq] at h1
    exact h1.symm
  calc ((List.range BOARD_SIZE).map
          (List.length ∘ (fun lr => lr.tiles) ∘ verEntry clones dir)).sum
      < ((List.range BOARD_SIZE).map (fun x => (colTilesOf clones x).length)).sum := by
        refine map_sum_lt (List.range BOARD_SIZE)
          (fun x _ => ver_entry_length clones dir x) ⟨c, hcc, ?_⟩
        exact ver_entry_full_lt hwfc hclen (List.mem_range.1 hcc) hlrm
    _ = clones.length := hsum

theorem moveTiles_full_lt {tiles : List Tile} (dir : Direction) (hwf : WellFormed tiles)
    (hlen : tiles.length = BOARD_SIZE * BOARD_SIZE)
    (hm : (moveTiles tiles dir).moved = true) :
    (moveTiles tiles dir).tiles.length < tiles.length := by
  have hwfc : WellFormed (tiles.map clearFlags) := wf_clearFlags hwf
  have hclen : (tiles.map clearFlags).length = BOARD_SIZE * BOARD_SIZE := by
    rw [List.length_map]
    exact hlen
  rw [moveTiles_moved_iff] at hm
  rw [moveTiles_of_moved hm]
  show (List.insertionSort tileOrder _).length < _
  rw [(List.perm_insertionSort tileOrder _).length_eq, List.length_flatten]
  have hfinal : (tiles.map clearFlags).length = tiles.length := List.length_map _ _
  cases dir
  case left =>
    have := hor_full_sum_lt hwfc hclen (Or.inl rfl) hm
    rw [hfinal] at this
    exact this
  case right =>
    have := hor_full_sum_lt hwfc hclen (Or.inr rfl) hm
    rw [hfinal] at this
    exact this
  case up =>
    have := ver_full_sum_lt hwfc hclen (Or.inl rfl) hm
    rw [hfinal] at this
    exact this
  case down =>
    have := ver_full_sum_lt hwfc hclen (Or.inr rfl) hm
    rw [hfinal] at this
    exact this

/-- C7: after every accepted move (`moved = true`) on a well-formed board
the collapsed board has at least one empty cell, so the zero-empty-cells
branch of `addRandomTile` is unreachable when the spawn runs after an
accepted move: the spawn always adds exactly one tile. -/
theorem spawn_precondition (tiles : List Tile) (dir : Direction) (hwf : WellFormed tiles)
    (hm : (moveTiles tiles dir).moved = true) :
    getEmptyPositions (moveTiles tiles dir).tiles ≠ [] ∧
    (∀ (newId rollPos : Nat) (rollFour : Bool),
      (addRandomTile (moveTiles tiles dir).tiles newId rollPos rollFour).length
        = (moveTiles tiles dir).tiles.length + 1) := by
  have hlt : (moveTiles tiles dir).tiles.length < BOARD_SIZE * BOARD_SIZE := by
    rcases Nat.lt_or_ge tiles.length (BOARD_SIZE * BOARD_SIZE) with h | h
    · exact Nat.lt_of_le_of_lt (moveTiles_length_le dir hwf) h
    · have h16 : tiles.length = BOARD_SIZE * BOARD_SIZE :=
        Nat.le_antisymm (wf_length_le hwf) h
      exact Nat.lt_of_lt_of_le (moveTiles_full_lt dir hwf h16 hm) (Nat.le_of_eq h16)
  have hne := empty_exists_of_lt hlt
  refine ⟨hne, ?_⟩
  intro newId rollPos rollFour
  unfold addRandomTile
  rw [if_neg (by simp [hne])]
  simp

/-- Witness for C7 on a concrete accepted move. -/
theorem spawn_precondition_witness :
    getEmptyPositions (moveTiles [⟨1, 2, 0, 0, false, false⟩, ⟨2, 2, 0, 1, false, false⟩]
      Direction.left).tiles ≠ [] :=
  (spawn_precondition [⟨1, 2, 0, 0, false, false⟩, ⟨2, 2, 0, 1, false, false⟩]
    Direction.left (by decide) (by decide)).1

end Game2048
